import Mathlib

/-!
Verification of the shrev event-channel ring buffer (src/storage.rs, src/util.rs).

The state and the operations are shallowly embedded. Machine integers
(usize) are modelled as Nat; where the source wraps (the generation counter,
sentinel arithmetic) the model reduces modulo 2 ^ 64 explicitly. Operations
whose source can panic return Option, with none standing for the panic:
the instance-id assertion and the registry lookup in read, the debug-mode
underflow of `available -= len` in iter_write, and the debug-mode overflow
of the capacity-doubling arithmetic in ensure_additional_slow.

The element store `Data<T>` is modelled as a `List (Option T)`: a slot is
`none` while no element was ever written there. `Data::grow` relocates the
suffix `[cursor, len)` with `copy_nonoverlapping`, which leaves the source
bytes intact; because `by >= len` is asserted, the whole original range
`[0, len)` keeps its (possibly stale, but bit-identical) values, and the
relocated copies appear at `[cursor + by, len + by)`. Readers that are not
shifted keep reading the original positions, shifted readers read the
copies, so the value-level model keeps both.

The uninitialized-slot counter of `Data<T>` only affects destructor timing,
never which value a slot holds, so it is not part of the model.
-/

set_option maxHeartbeats 1000000

namespace Shrev

/-- Number of values of the 64-bit usize type; usize arithmetic wraps modulo this. -/
def USIZE : Nat := 2 ^ 64

/-- The all-ones usize value, written !0 in the source. It is the magic
sentinel of CircularIndex and the inactive marker of reader cursors. -/
def SENT : Nat := USIZE - 1

/-- An integer position paired with a ring modulus (storage.rs, CircularIndex). -/
structure CircularIndex where
  index : Nat
  size : Nat
  deriving Repr, DecidableEq

/-- CircularIndex::new. -/
def CircularIndex.new (index size : Nat) : CircularIndex := ⟨index, size⟩

/-- CircularIndex::at_end. -/
def CircularIndex.at_end (size : Nat) : CircularIndex := ⟨size - 1, size⟩

/-- CircularIndex::magic, the exhausted state with index !0. -/
def CircularIndex.magic (size : Nat) : CircularIndex := ⟨SENT, size⟩

/-- CircularIndex::is_magic. -/
def CircularIndex.is_magic (c : CircularIndex) : Bool := c.index == SENT

/-- The Add impl of CircularIndex: (index + rhs) % size. -/
def CircularIndex.add (c : CircularIndex) (rhs : Nat) : Nat := (c.index + rhs) % c.size

/-- The Sub impl of CircularIndex: (size - rhs + index) % size. -/
def CircularIndex.sub (c : CircularIndex) (rhs : Nat) : Nat := (c.size - rhs + c.index) % c.size

/-- CircularIndex::step. The source mutates self and returns Option of usize;
the model returns the yielded value together with the successor state. -/
def CircularIndex.step (c : CircularIndex) (inclusive_end : Nat) : Option Nat × CircularIndex :=
  if c.index = SENT then (none, c)
  else if c.index = inclusive_end then (some c.index, { c with index := SENT })
  else (some c.index, { c with index := c.add 1 })

/-- Result of the k-th (0-based) call to step, starting from state c. -/
def stepIter (c : CircularIndex) (inclusive_end : Nat) : Nat → Option Nat
  | 0 => (c.step inclusive_end).1
  | k + 1 => stepIter (c.step inclusive_end).2 inclusive_end k

/-- Data::new: size slots, all uninitialized. -/
def Data.new (T : Type) (size : Nat) : List (Option T) := List.replicate size none

/-- Data::put. Whether the slot was initialized only changes destructor
behaviour in the source; the stored value is the same either way. -/
def Data.put {T : Type} (d : List (Option T)) (cursor : Nat) (elem : T) : List (Option T) :=
  d.set cursor (some elem)

/-- Data::get (get_unchecked); all source call sites are in bounds. -/
def Data.get {T : Type} (d : List (Option T)) (index : Nat) : Option T :=
  d.getD index none

/-- Data::grow with `by >= len` (asserted in the source): positions below the
old length keep their values (copy_nonoverlapping leaves the source range
intact and the new free region covers it), positions of the relocated
suffix reappear shifted up by the growth amount, and the gap in between
is uninitialized. -/
def Data.grow {T : Type} (d : List (Option T)) (cursor grow_by : Nat) : List (Option T) :=
  d ++ List.replicate (cursor + grow_by - d.length) none ++ d.drop cursor

/-- A per-reader cursor (storage.rs, Reader). -/
structure Reader where
  generation : Nat
  last_index : Nat
  deriving Repr, DecidableEq

/-- Reader::active: the inactive marker is last_index == !0. -/
def Reader.active (r : Reader) : Bool := r.last_index != SENT

/-- Reader::set_inactive. -/
def Reader.set_inactive (r : Reader) : Reader := { r with last_index := SENT }

/-- Reader::distance_from: ring distance from the write head to this cursor,
with the caught-up case (distance 0, same generation) mapped to size. -/
def Reader.distance_from (r : Reader) (last : CircularIndex) (current_gen : Nat) : Nat :=
  let d := CircularIndex.sub ⟨r.last_index, last.size⟩ last.index
  if d = 0 ∧ r.generation = current_gen then last.size else d

/-- Reader::needs_shift. -/
def Reader.needs_shift (r : Reader) (last_index current_gen : Nat) : Bool :=
  decide (last_index < r.last_index) ||
    (r.last_index == last_index && r.generation != current_gen)

/-- The reader handle (storage.rs, ReaderId). The drop notifier is modelled
by the dropReader operation on the buffer; the reference field carries the
instance id of the creating buffer. -/
structure ReaderId where
  id : Nat
  reference : Nat
  deriving Repr, DecidableEq

/-- The reader registry (storage.rs, ReaderMeta). -/
structure ReaderMeta where
  free : List Nat
  readers : List Reader
  deriving Repr, DecidableEq

/-- ReaderMeta::new. -/
def ReaderMeta.new : ReaderMeta := ⟨[], []⟩

/-- ReaderMeta::has_reader. -/
def ReaderMeta.has_reader (m : ReaderMeta) : Bool := m.readers.any fun r => r.active

/-- ReaderMeta::alloc: pop a free id and reset its entry, or append a new entry. -/
def ReaderMeta.alloc (m : ReaderMeta) (last_index generation : Nat) : ReaderMeta × Nat :=
  match m.free with
  | id :: rest =>
    ({ m with free := rest,
              readers := m.readers.set id ⟨generation, last_index⟩ }, id)
  | [] =>
    ({ m with readers := m.readers ++ [⟨generation, last_index⟩] }, m.readers.length)

/-- ReaderMeta::remove: deactivate the entry and push the id on the free list.
The source indexes readers[id] directly; all call sites are in bounds. -/
def ReaderMeta.remove (m : ReaderMeta) (id : Nat) : ReaderMeta :=
  { free := id :: m.free,
    readers := m.readers.set id ((m.readers.getD id ⟨0, SENT⟩).set_inactive) }

/-- ReaderMeta::nearest_index fused with the one use of its result: the
caller only reads distance_from of the returned reader, which is exactly
the minimum of the distances of the active readers (min_by_key). -/
def ReaderMeta.nearest_dist (m : ReaderMeta) (last : CircularIndex) (current_gen : Nat) :
    Option Nat :=
  ((m.readers.filter fun r => r.active).map fun r => r.distance_from last current_gen).min?

/-- ReaderMeta::shift: active readers past the insertion point move up by grow_by. -/
def ReaderMeta.shift (m : ReaderMeta) (last_index current_gen grow_by : Nat) : ReaderMeta :=
  { m with readers := m.readers.map fun r =>
      if r.active && r.needs_shift last_index current_gen then
        { r with last_index := r.last_index + grow_by }
      else r }

/-- The ring buffer (storage.rs, RingBuffer). The mpsc drop-notification
channel is the pending list (ids sent but not yet received by maintain);
instance_id stands for the process-unique InstanceId token. -/
structure RingBuffer (T : Type) where
  available : Nat
  last_index : CircularIndex
  data : List (Option T)
  generation : Nat
  instance_id : Nat
  meta : ReaderMeta
  pending : List Nat
  deriving Repr, DecidableEq

variable {T : Type}

/-- RingBuffer::new (the source asserts size > 1; reachability carries that bound). -/
def RingBuffer.new (T : Type) (size iid : Nat) : RingBuffer T :=
  { available := size
    last_index := CircularIndex.at_end size
    data := Data.new T size
    generation := 0
    instance_id := iid
    meta := ReaderMeta.new
    pending := [] }

/-- RingBuffer::maintain: drain the drop channel, removing each reported id. -/
def RingBuffer.maintain (b : RingBuffer T) : RingBuffer T :=
  { b with meta := b.pending.foldl ReaderMeta.remove b.meta, pending := [] }

/-- The doubling loop of ensure_additional_slow: size *= 2 until size >= target.
Doubling past usize::MAX is a debug-mode panic, hence none; the 0 < size
conjunct marks a state on which the source loop would not terminate
(unreachable, capacity is at least 2). -/
def growLoop (size target : Nat) : Option Nat :=
  if size < target then
    if 0 < size ∧ 2 * size < USIZE then growLoop (2 * size) target else none
  else some size
termination_by target - size
decreasing_by omega

/-- RingBuffer::ensure_additional_slow. The two arithmetic guards model the
debug-mode overflow panics of `size + grow_by` and of the doubling. -/
def RingBuffer.ensure_additional_slow (b : RingBuffer T) (num : Nat) : Option (RingBuffer T) :=
  let bm := b.maintain
  match bm.meta.nearest_dist bm.last_index bm.generation with
  | none => some { bm with available := bm.last_index.size }
  | some left =>
    if num ≤ left then some { bm with available := left }
    else
      let grow_by := num - left
      if bm.last_index.size + grow_by < USIZE ∧ 2 * bm.last_index.size < USIZE then
        match growLoop (2 * bm.last_index.size) (bm.last_index.size + grow_by) with
        | none => none
        | some size =>
          let gb := size - bm.last_index.size
          some { bm with
            data := Data.grow bm.data (bm.last_index.add 1) gb
            last_index := { bm.last_index with size := size }
            meta := bm.meta.shift bm.last_index.index bm.generation gb
            available := gb + left }
      else none

/-- RingBuffer::ensure_additional. -/
def RingBuffer.ensure_additional (b : RingBuffer T) (num : Nat) : Option (RingBuffer T) :=
  if num ≤ b.available then some b else b.ensure_additional_slow num

/-- The write loop of iter_write: put each element at last_index + 1 and advance. -/
def writeAll (b : RingBuffer T) : List T → RingBuffer T
  | [] => b
  | e :: l =>
    writeAll
      { b with data := Data.put b.data (b.last_index.add 1) e
               last_index := { b.last_index with index := b.last_index.add 1 } } l

/-- RingBuffer::iter_write. The final check models the usize subtraction
`available -= len`, which panics on underflow in debug builds; the
generation increment wraps. -/
def RingBuffer.iter_write (b : RingBuffer T) (l : List T) : Option (RingBuffer T) :=
  if l.length = 0 then some b
  else
    match b.ensure_additional l.length with
    | none => none
    | some b1 =>
      let b2 := writeAll b1 l
      if l.length ≤ b2.available then
        some { b2 with available := b2.available - l.length
                       generation := (b2.generation + 1) % USIZE }
      else none

/-- RingBuffer::single_write. -/
def RingBuffer.single_write (b : RingBuffer T) (element : T) : Option (RingBuffer T) :=
  b.iter_write [element]

/-- RingBuffer::drain_vec_write (the drained vector is the input list). -/
def RingBuffer.drain_vec_write (b : RingBuffer T) (l : List T) : Option (RingBuffer T) :=
  b.iter_write l

/-- RingBuffer::would_write: maintain, then report whether any reader is active. -/
def RingBuffer.would_write (b : RingBuffer T) : RingBuffer T × Bool :=
  (b.maintain, b.maintain.meta.has_reader)

/-- RingBuffer::new_reader_id. -/
def RingBuffer.new_reader_id (b : RingBuffer T) : RingBuffer T × ReaderId :=
  let bm := b.maintain
  let p := bm.meta.alloc bm.last_index.index bm.generation
  ({ bm with meta := p.1 }, ⟨p.2, bm.instance_id⟩)

/-- Length reported by the ExactSizeIterator impl of StorageIterator. -/
def iterLen (c : CircularIndex) (inclusive_end : Nat) : Nat :=
  if c.index = SENT then 0 else CircularIndex.sub ⟨inclusive_end, c.size⟩ c.index + 1

/-- Full consumption of a StorageIterator: repeated step, collecting the
slot values, with fuel bounding the number of next calls. -/
def collectSteps (d : List (Option T)) (inclusive_end : Nat) :
    CircularIndex → Nat → List (Option T)
  | _, 0 => []
  | c, fuel + 1 =>
    match c.step inclusive_end with
    | (none, _) => []
    | (some i, c2) => Data.get d i :: collectSteps d inclusive_end c2 fuel

/-- RingBuffer::read. The instance-id assertion and the unwrap of the
registry lookup are the two none cases. The returned iterator is modelled
by the list of values it yields when fully consumed (its exact length is
known up front); consuming or discarding it does not touch the buffer. -/
def RingBuffer.read (b : RingBuffer T) (rid : ReaderId) :
    Option (RingBuffer T × List (Option T)) :=
  if rid.reference = b.instance_id then
    match b.meta.readers[rid.id]? with
    | none => none
    | some r =>
      let idx0 : CircularIndex :=
        ⟨CircularIndex.add ⟨r.last_index, b.last_index.size⟩ 1, b.last_index.size⟩
      let idx := if r.generation = b.generation then CircularIndex.magic b.last_index.size
                 else idx0
      let out := collectSteps b.data b.last_index.index idx (iterLen idx b.last_index.index)
      some ({ b with meta := { b.meta with
                readers := b.meta.readers.set rid.id ⟨b.generation, b.last_index.index⟩ } },
            out)
  else none

/-- Dropping a ReaderId sends its id through the drop channel. -/
def RingBuffer.dropReader (b : RingBuffer T) (rid : ReaderId) : RingBuffer T :=
  { b with pending := b.pending ++ [rid.id] }

/-! Derived notions used by the specification statements. -/

/-- Ring distance: number of forward steps from a to b on a ring of modulus s. -/
def distTo (s a b : Nat) : Nat := (s - a + b) % s

/-- The n successive ring positions starting at start. -/
def ringIdx (s start n : Nat) : List Nat :=
  (List.range n).map fun k => (start + k) % s

/-- The slot values at the n successive ring positions starting at start. -/
def ringSlice (d : List (Option T)) (s start n : Nat) : List (Option T) :=
  (ringIdx s start n).map fun i => Data.get d i

/-- Number of events a reader cursor has not consumed yet, out of a ring of
modulus s whose write head is at position a with generation g: zero when the
cursor's generation matches g, else the inclusive ring span from the slot
after the cursor to the write head. -/
def pendLenD (s a g : Nat) (r : Reader) : Nat :=
  if r.generation = g then 0 else distTo s ((r.last_index + 1) % s) a + 1

/-- The slot values a reader cursor has not consumed yet, in write order. -/
def pendD (d : List (Option T)) (s a g : Nat) (r : Reader) : List (Option T) :=
  ringSlice d s ((r.last_index + 1) % s) (pendLenD s a g r)

/-- Number of events a reader cursor has not consumed yet. -/
def pendLen (b : RingBuffer T) (r : Reader) : Nat :=
  pendLenD b.last_index.size b.last_index.index b.generation r

/-- The unconsumed events of a reader cursor, in write order. -/
def pend (b : RingBuffer T) (r : Reader) : List (Option T) :=
  pendD b.data b.last_index.size b.last_index.index b.generation r

/-- Per-active-reader part of the state invariant: cursor in range, the
cached available count never exceeds this reader's distance, a cursor at
the buffer generation sits exactly at the write head, and the generation
lag (taken modulo USIZE) is covered by the unconsumed-event count, so
generation equality is never an accidental wrap-around collision. -/
def RInv (b : RingBuffer T) (r : Reader) : Prop :=
  r.last_index < b.last_index.size ∧
  r.generation < USIZE ∧
  b.available ≤ r.distance_from b.last_index b.generation ∧
  (r.generation = b.generation → r.last_index = b.last_index.index) ∧
  (USIZE + b.generation - r.generation) % USIZE ≤ pendLen b r

/-- The state invariant of the ring buffer, preserved by every operation. -/
def WF (b : RingBuffer T) : Prop :=
  2 ≤ b.last_index.size ∧
  b.last_index.size < USIZE ∧
  b.data.length = b.last_index.size ∧
  b.last_index.index < b.last_index.size ∧
  b.generation < USIZE ∧
  b.available ≤ b.last_index.size ∧
  (∀ id ∈ b.meta.free, id < b.meta.readers.length) ∧
  (∀ id ∈ b.pending, id < b.meta.readers.length) ∧
  (∀ r ∈ b.meta.readers, r.active = true → RInv b r)

/-- One observable operation on a buffer. A write step carries its success
(a failed write is a panic, after which there is no next state); a drop
step carries the in-range bound that every really allocated handle has. -/
inductive BufStep : RingBuffer T → RingBuffer T → Prop where
  | write (b : RingBuffer T) (l : List T) (b2 : RingBuffer T)
      (hw : b.iter_write l = some b2) : BufStep b b2
  | register (b : RingBuffer T) : BufStep b (b.new_reader_id).1
  | readStep (b b2 : RingBuffer T) (rid : ReaderId) (out : List (Option T))
      (hr : b.read rid = some (b2, out)) : BufStep b b2
  | dropStep (b : RingBuffer T) (rid : ReaderId)
      (hid : rid.id < b.meta.readers.length) : BufStep b (b.dropReader rid)
  | wouldWriteStep (b : RingBuffer T) : BufStep b (b.would_write).1

/-- States reachable from a fresh buffer of initial capacity init (the
constructor asserts init > 1; init is a usize). -/
def Reachable (init iid : Nat) (b : RingBuffer T) : Prop :=
  1 < init ∧ init < USIZE ∧
  Relation.ReflTransGen BufStep (RingBuffer.new T init iid) b

/-- A post-registration interaction: a write batch, or a read with the
tracked reader handle. -/
inductive ScriptItem (T : Type) where
  | write (l : List T) : ScriptItem T
  | readR : ScriptItem T

/-- Run a script, threading the buffer and collecting everything the
tracked reader's read calls yield. -/
def runScript (rid : ReaderId) : RingBuffer T → List (ScriptItem T) →
    Option (RingBuffer T × List (Option T))
  | b, [] => some (b, [])
  | b, ScriptItem.write l :: s =>
    match b.iter_write l with
    | none => none
    | some b2 => runScript rid b2 s
  | b, ScriptItem.readR :: s =>
    match b.read rid with
    | none => none
    | some (b2, out) =>
      match runScript rid b2 s with
      | none => none
      | some (b3, outs) => some (b3, out ++ outs)

/-- All elements written by a script, in write order. -/
def writesOf : List (ScriptItem T) → List T
  | [] => []
  | ScriptItem.write l :: s => l ++ writesOf s
  | ScriptItem.readR :: s => writesOf s

/-- A sequence of write batches. -/
def writeMany (b : RingBuffer T) : List (List T) → Option (RingBuffer T)
  | [] => some b
  | l :: ls =>
    match b.iter_write l with
    | none => none
    | some b2 => writeMany b2 ls

instance (b : RingBuffer T) (r : Reader) : Decidable (RInv b r) := by
  unfold RInv; infer_instance

instance (b : RingBuffer T) : Decidable (WF b) := by
  unfold WF; infer_instance

/-! Ring arithmetic helpers. -/

theorem distTo_lt (s a b : Nat) (hs : 0 < s) : distTo s a b < s :=
  Nat.mod_lt _ hs

theorem distTo_closed (s a b : Nat) (ha : a < s) (hb : b < s) :
    distTo s a b = if a ≤ b then b - a else s - a + b := by
  unfold distTo
  rcases le_or_lt a b with h | h
  · have h1 : s - a + b = (b - a) + s := by omega
    rw [if_pos h, h1, Nat.add_mod_right, Nat.mod_eq_of_lt (by omega)]
  · rw [if_neg (by omega), Nat.mod_eq_of_lt (by omega)]

theorem distTo_self (s a : Nat) (ha : a < s) : distTo s a a = 0 := by
  rw [distTo_closed s a a ha ha, if_pos le_rfl, Nat.sub_self]

theorem distTo_pos (s a b : Nat) (ha : a < s) (hb : b < s) (hne : a ≠ b) :
    0 < distTo s a b := by
  rw [distTo_closed s a b ha hb]
  split <;> omega

theorem add_distTo (s a b : Nat) (ha : a < s) (hb : b < s) :
    (a + distTo s a b) % s = b := by
  rw [distTo_closed s a b ha hb]
  split
  · rw [show a + (b - a) = b by omega, Nat.mod_eq_of_lt hb]
  · rw [show a + (s - a + b) = s + b by omega, Nat.add_mod_left, Nat.mod_eq_of_lt hb]

theorem distTo_of_add (s a t : Nat) (ha : a < s) (ht : t < s) :
    distTo s a ((a + t) % s) = t := by
  unfold distTo
  rw [Nat.add_mod_mod, show s - a + (a + t) = s + t by omega, Nat.add_mod_left,
    Nat.mod_eq_of_lt ht]

theorem ring_inj (s a t u : Nat) (ht : t < s) (hu : u < s)
    (h : (a + t) % s = (a + u) % s) : t = u := by
  have ha : a % s < s := Nat.mod_lt _ (by omega)
  have h1 : (a % s + t) % s = (a % s + u) % s := by
    rw [Nat.mod_add_mod, Nat.mod_add_mod]; exact h
  have h2 := distTo_of_add s (a % s) t ha ht
  rw [h1, distTo_of_add s (a % s) u ha hu] at h2
  omega

theorem distTo_succ (s a b : Nat) (ha : a < s) (hb : b < s) (hne : a ≠ b) :
    distTo s ((a + 1) % s) b = distTo s a b - 1 := by
  rcases Nat.lt_or_ge (a + 1) s with h | h
  · rw [Nat.mod_eq_of_lt h, distTo_closed s (a + 1) b h hb, distTo_closed s a b ha hb]
    split <;> split <;> omega
  · have ha1 : a = s - 1 := by omega
    have h2 : (a + 1) % s = 0 := by
      rw [show a + 1 = s by omega, Nat.mod_self]
    rw [h2, distTo_closed s 0 b (by omega) hb, distTo_closed s a b ha hb]
    split <;> split <;> omega

theorem lt_sent_of_lt {p s : Nat} (hp : p < s) (hs : s < USIZE) : p ≠ SENT := by
  unfold SENT USIZE at *
  omega

/-! Stepping lemmas for CircularIndex. -/

theorem step_eq (p s e : Nat) (hp : p < s) (hs : s < USIZE) :
    CircularIndex.step ⟨p, s⟩ e =
      if p = e then (some p, ⟨SENT, s⟩) else (some p, ⟨(p + 1) % s, s⟩) := by
  unfold CircularIndex.step CircularIndex.add
  simp only [if_neg (lt_sent_of_lt hp hs)]

theorem step_magic (s e : Nat) :
    CircularIndex.step ⟨SENT, s⟩ e = (none, ⟨SENT, s⟩) := by
  unfold CircularIndex.step
  simp

theorem stepIter_magic (s e : Nat) : ∀ k, stepIter ⟨SENT, s⟩ e k = none := by
  intro k
  induction k with
  | zero => rw [stepIter, step_magic]
  | succ k ih => rw [stepIter, step_magic]; exact ih

theorem stepIter_le (s e : Nat) (hs : s < USIZE) (he : e < s) :
    ∀ k start, start < s → k ≤ distTo s start e →
      stepIter ⟨start, s⟩ e k = some ((start + k) % s) := by
  intro k
  induction k with
  | zero =>
    intro start hstart _
    rw [stepIter, step_eq start s e hstart hs]
    split <;> simp [Nat.mod_eq_of_lt hstart]
  | succ k ih =>
    intro start hstart hk
    have hne : start ≠ e := by
      intro h
      rw [h, distTo_self s e he] at hk
      omega
    rw [stepIter, step_eq start s e hstart hs, if_neg hne]
    have h1 : (start + 1) % s < s := Nat.mod_lt _ (by omega)
    have h2 : k ≤ distTo s ((start + 1) % s) e := by
      rw [distTo_succ s start e hstart he hne]
      omega
    rw [ih ((start + 1) % s) h1 h2, Nat.mod_add_mod]
    ring_nf

theorem stepIter_gt (s e : Nat) (hs : s < USIZE) (he : e < s) :
    ∀ k start, start < s → distTo s start e < k →
      stepIter ⟨start, s⟩ e k = none := by
  intro k
  induction k with
  | zero => omega
  | succ k ih =>
    intro start hstart hk
    by_cases hne : start = e
    · subst hne
      rw [stepIter, step_eq start s start hstart hs, if_pos rfl]
      exact stepIter_magic s start k
    · rw [stepIter, step_eq start s e hstart hs, if_neg hne]
      refine ih ((start + 1) % s) (Nat.mod_lt _ (by omega)) ?_
      rw [distTo_succ s start e hstart he hne]
      have := distTo_pos s start e hstart he hne
      omega

/-! Ring slice lemmas. -/

theorem ringIdx_zero (s start : Nat) : ringIdx s start 0 = [] := rfl

theorem ringSlice_zero (d : List (Option T)) (s start : Nat) :
    ringSlice d s start 0 = [] := rfl

theorem ringIdx_length (s start n : Nat) : (ringIdx s start n).length = n := by
  unfold ringIdx
  simp

theorem ringSlice_length (d : List (Option T)) (s start n : Nat) :
    (ringSlice d s start n).length = n := by
  unfold ringSlice
  rw [List.length_map, ringIdx_length]

theorem ringIdx_succ (s start n : Nat) (hs : 0 < s) :
    ringIdx s start (n + 1) = start % s :: ringIdx s ((start + 1) % s) n := by
  unfold ringIdx
  rw [List.range_succ_eq_map]
  simp only [List.map_cons, List.map_map, Nat.add_zero]
  congr 1
  apply List.map_congr_left
  intro k _
  simp only [Function.comp_apply]
  rw [Nat.mod_add_mod]
  congr 1
  omega

theorem ringSlice_succ (d : List (Option T)) (s start n : Nat) (hs : 0 < s) :
    ringSlice d s start (n + 1) =
      Data.get d (start % s) :: ringSlice d s ((start + 1) % s) n := by
  unfold ringSlice
  rw [ringIdx_succ s start n hs]
  rfl

theorem ringIdx_add (s start m n : Nat) :
    ringIdx s start (m + n) = ringIdx s start m ++ ringIdx s ((start + m) % s) n := by
  unfold ringIdx
  rw [List.range_add, List.map_append]
  congr 1
  rw [List.map_map]
  apply List.map_congr_left
  intro k _
  simp only [Function.comp_apply]
  rw [Nat.mod_add_mod]
  congr 1
  omega

theorem ringSlice_add (d : List (Option T)) (s start m n : Nat) :
    ringSlice d s start (m + n) =
      ringSlice d s start m ++ ringSlice d s ((start + m) % s) n := by
  unfold ringSlice
  rw [ringIdx_add, List.map_append]

theorem ringSlice_congr (d d2 : List (Option T)) (s start n : Nat)
    (h : ∀ t, t < n → Data.get d2 ((start + t) % s) = Data.get d ((start + t) % s)) :
    ringSlice d2 s start n = ringSlice d s start n := by
  unfold ringSlice ringIdx
  rw [List.map_map, List.map_map]
  apply List.map_congr_left
  intro k hk
  simp only [Function.comp_apply]
  exact h k (List.mem_range.mp hk)

theorem collectSteps_eq (d : List (Option T)) (s e : Nat) (hs : s < USIZE) (he : e < s) :
    ∀ n start, start < s → n = distTo s start e + 1 →
      collectSteps d e ⟨start, s⟩ n = ringSlice d s start n := by
  intro n
  induction n with
  | zero => omega
  | succ n ih =>
    intro start hstart hn
    rw [collectSteps, step_eq start s e hstart hs]
    by_cases hne : start = e
    · subst hne
      rw [distTo_self s start hstart] at hn
      have hn0 : n = 0 := by omega
      subst hn0
      simp only [if_pos rfl]
      rw [ringSlice_succ d s start 0 (by omega), ringSlice_zero,
        Nat.mod_eq_of_lt hstart]
      rfl
    · simp only [if_neg hne]
      have hd := distTo_pos s start e hstart he hne
      have h1 : (start + 1) % s < s := Nat.mod_lt _ (by omega)
      have h2 : n = distTo s ((start + 1) % s) e + 1 := by
        rw [distTo_succ s start e hstart he hne]
        omega
      rw [ih ((start + 1) % s) h1 h2,
        ringSlice_succ d s start n (by omega), Nat.mod_eq_of_lt hstart]

/-! Data store lemmas. -/

theorem Data.put_length (d : List (Option T)) (c : Nat) (e : T) :
    (Data.put d c e).length = d.length := by
  unfold Data.put
  exact List.length_set d c _

theorem Data.get_put_self (d : List (Option T)) (c : Nat) (e : T) (hc : c < d.length) :
    Data.get (Data.put d c e) c = some e := by
  unfold Data.get Data.put
  rw [List.getD_eq_getElem?_getD, List.getElem?_set_self hc]
  rfl

theorem Data.get_put_ne (d : List (Option T)) (c p : Nat) (e : T) (h : c ≠ p) :
    Data.get (Data.put d c e) p = Data.get d p := by
  unfold Data.get Data.put
  rw [List.getD_eq_getElem?_getD, List.getD_eq_getElem?_getD, List.getElem?_set_ne h]

theorem Data.grow_length (d : List (Option T)) (c gb : Nat) (hc : c ≤ d.length)
    (hby : d.length ≤ gb) : (Data.grow d c gb).length = d.length + gb := by
  unfold Data.grow
  simp only [List.length_append, List.length_replicate, List.length_drop]
  omega

theorem Data.get_grow_low (d : List (Option T)) (c gb p : Nat) (hp : p < d.length) :
    Data.get (Data.grow d c gb) p = Data.get d p := by
  unfold Data.get Data.grow
  rw [List.getD_eq_getElem?_getD, List.getD_eq_getElem?_getD, List.getElem?_append,
    if_pos (by simp only [List.length_append, List.length_replicate]; omega),
    List.getElem?_append, if_pos hp]

theorem Data.get_grow_high (d : List (Option T)) (c gb p : Nat) (hc : c ≤ p)
    (hp : p < d.length) (hby : d.length ≤ gb) :
    Data.get (Data.grow d c gb) (p + gb) = Data.get d p := by
  unfold Data.get Data.grow
  rw [List.getD_eq_getElem?_getD, List.getD_eq_getElem?_getD,
    List.getElem?_append_right
      (by simp only [List.length_append, List.length_replicate]; omega),
    List.getElem?_drop]
  congr 2
  simp only [List.length_append, List.length_replicate]
  omega

/-! Write loop lemmas. -/

theorem writeAll_frame (l : List T) : ∀ b : RingBuffer T,
    (writeAll b l).last_index.size = b.last_index.size ∧
    (writeAll b l).available = b.available ∧
    (writeAll b l).generation = b.generation ∧
    (writeAll b l).instance_id = b.instance_id ∧
    (writeAll b l).meta = b.meta ∧
    (writeAll b l).pending = b.pending ∧
    (writeAll b l).data.length = b.data.length := by
  induction l with
  | nil => intro b; exact ⟨rfl, rfl, rfl, rfl, rfl, rfl, rfl⟩
  | cons e l ih =>
    intro b
    have h := ih { b with data := Data.put b.data (b.last_index.add 1) e
                          last_index := { b.last_index with index := b.last_index.add 1 } }
    rw [writeAll]
    refine ⟨h.1, h.2.1, h.2.2.1, h.2.2.2.1, h.2.2.2.2.1, h.2.2.2.2.2.1, ?_⟩
    rw [h.2.2.2.2.2.2]
    exact Data.put_length b.data _ e

theorem writeAll_last (l : List T) : ∀ b : RingBuffer T,
    b.last_index.index < b.last_index.size →
    (writeAll b l).last_index.index =
      (b.last_index.index + l.length) % b.last_index.size := by
  induction l with
  | nil =>
    intro b hi
    rw [writeAll, List.length_nil, Nat.add_zero, Nat.mod_eq_of_lt hi]
  | cons e l ih =>
    intro b hi
    have hs : 0 < b.last_index.size := by omega
    rw [writeAll]
    have h := ih { b with data := Data.put b.data (b.last_index.add 1) e
                          last_index := { b.last_index with index := b.last_index.add 1 } }
      (Nat.mod_lt _ hs)
    rw [h]
    show ((b.last_index.index + 1) % b.last_index.size + l.length) % b.last_index.size = _
    rw [Nat.mod_add_mod, List.length_cons]
    congr 1
    omega

theorem writeAll_get_out (l : List T) : ∀ (b : RingBuffer T) (p : Nat),
    b.last_index.index < b.last_index.size →
    (∀ j, j < l.length → p ≠ (b.last_index.index + 1 + j) % b.last_index.size) →
    Data.get (writeAll b l).data p = Data.get b.data p := by
  induction l with
  | nil => intro b p _ _; rfl
  | cons e l ih =>
    intro b p hi hp
    have hs : 0 < b.last_index.size := by omega
    rw [writeAll]
    have h0 : p ≠ (b.last_index.index + 1) % b.last_index.size := by
      have := hp 0 (by simp)
      rw [Nat.add_zero] at this
      exact this
    rw [ih _ p (Nat.mod_lt _ hs) ?_]
    · exact Data.get_put_ne b.data _ p e fun h => h0 h.symm
    · intro j hj
      show p ≠ ((b.last_index.index + 1) % b.last_index.size + 1 + j) % b.last_index.size
      rw [Nat.add_assoc, Nat.mod_add_mod, ← Nat.add_assoc]
      have := hp (j + 1) (by simp only [List.length_cons]; omega)
      rw [show b.last_index.index + 1 + (j + 1) = b.last_index.index + 1 + 1 + j by omega]
        at this
      exact this

theorem writeAll_get_in (l : List T) : ∀ (b : RingBuffer T),
    l.length ≤ b.last_index.size →
    b.data.length = b.last_index.size →
    b.last_index.index < b.last_index.size →
    ∀ j (hj : j < l.length),
      Data.get (writeAll b l).data ((b.last_index.index + 1 + j) % b.last_index.size) =
        some (l.get ⟨j, hj⟩) := by
  induction l with
  | nil => intro b _ _ _ j hj; simp at hj
  | cons e l ih =>
    intro b hl hd hi j hj
    have hs : 0 < b.last_index.size := by omega
    have hq : (b.last_index.index + 1) % b.last_index.size < b.last_index.size :=
      Nat.mod_lt _ hs
    rw [writeAll]
    match j with
    | 0 =>
      rw [Nat.add_zero]
      rw [writeAll_get_out l _ _ hq ?_]
      · show Data.get (Data.put b.data (b.last_index.add 1) e) _ = some e
        show Data.get (Data.put b.data ((b.last_index.index + 1) % b.last_index.size) e)
          ((b.last_index.index + 1) % b.last_index.size) = some e
        exact Data.get_put_self b.data _ e (by rw [hd]; exact hq)
      · intro j2 hj2 hEq
        have hEq1 : (b.last_index.index + 1) % b.last_index.size =
            ((b.last_index.index + 1) % b.last_index.size + 1 + j2) % b.last_index.size :=
          hEq
        rw [Nat.add_assoc, Nat.mod_add_mod, ← Nat.add_assoc] at hEq1
        rw [show b.last_index.index + 1 + 1 + j2 = b.last_index.index + 1 + (1 + j2)
          by omega] at hEq1
        have hEq2 : (b.last_index.index + 1 + 0) % b.last_index.size =
            (b.last_index.index + 1 + (1 + j2)) % b.last_index.size := by
          rw [Nat.add_zero]; exact hEq1
        have h1j : 1 + j2 < b.last_index.size := by
          simp only [List.length_cons] at hl
          omega
        have := ring_inj b.last_index.size (b.last_index.index + 1) 0 (1 + j2)
          (by omega) h1j hEq2
        omega
    | j2 + 1 =>
      have hrec := ih { b with data := Data.put b.data (b.last_index.add 1) e
                               last_index := { b.last_index with
                                 index := b.last_index.add 1 } }
        (by show l.length ≤ b.last_index.size
            simp only [List.length_cons] at hl; omega)
        (by show (Data.put b.data _ e).length = b.last_index.size
            rw [Data.put_length]; exact hd)
        hq j2 (by simp only [List.length_cons] at hj; omega)
      rw [show ((e :: l).get ⟨j2 + 1, hj⟩) = l.get ⟨j2, by
        simp only [List.length_cons] at hj; omega⟩ from rfl]
      rw [← hrec]
      congr 1
      show _ = ((b.last_index.index + 1) % b.last_index.size + 1 + j2) % b.last_index.size
      conv_rhs => rw [Nat.add_assoc, Nat.mod_add_mod]
      congr 1
      omega

/-! Pending-segment lemmas. -/

theorem ringSlice_getElem (d : List (Option T)) (s start n : Nat) (i : Nat) (hi : i < n) :
    (ringSlice d s start n).getD i none = Data.get d ((start + i) % s) := by
  unfold ringSlice ringIdx
  rw [List.getD_eq_getElem?_getD, List.getElem?_map, List.getElem?_map,
    List.getElem?_range hi]
  rfl

theorem ringSlice_ext (d d2 : List (Option T)) (s s2 start start2 n : Nat)
    (h : ∀ t, t < n → Data.get d2 ((start2 + t) % s2) = Data.get d ((start + t) % s)) :
    ringSlice d2 s2 start2 n = ringSlice d s start n := by
  apply List.ext_getElem
  · rw [ringSlice_length, ringSlice_length]
  · intro i h1 h2
    rw [ringSlice_length] at h1
    have e1 : (ringSlice d2 s2 start2 n).getD i none = Data.get d2 ((start2 + i) % s2) :=
      ringSlice_getElem d2 s2 start2 n i h1
    have e2 : (ringSlice d s start n).getD i none = Data.get d ((start + i) % s) :=
      ringSlice_getElem d s start n i h1
    rw [List.getD_eq_getElem?_getD,
      List.getElem?_eq_getElem (by rw [ringSlice_length]; exact h1)] at e1
    rw [List.getD_eq_getElem?_getD,
      List.getElem?_eq_getElem (by rw [ringSlice_length]; exact h1)] at e2
    simp only [Option.getD_some] at e1 e2
    rw [e1, e2]
    exact h i h1

theorem distance_from_eq (r : Reader) (a s g : Nat) :
    r.distance_from ⟨a, s⟩ g =
      if distTo s a r.last_index = 0 ∧ r.generation = g then s
      else distTo s a r.last_index := rfl

theorem pendLenD_eq_sub (s a g : Nat) (r : Reader) (ha : a < s) (hp : r.last_index < s)
    (hg : r.generation ≠ g) :
    pendLenD s a g r = s - distTo s a r.last_index := by
  unfold pendLenD
  rw [if_neg hg]
  rcases Nat.lt_or_ge (r.last_index + 1) s with h | h
  · rw [Nat.mod_eq_of_lt h, distTo_closed s (r.last_index + 1) a h ha,
      distTo_closed s a r.last_index ha hp]
    split <;> split <;> omega
  · have h2 : r.last_index + 1 = s := by omega
    rw [h2, Nat.mod_self, distTo_closed s 0 a (by omega) ha,
      distTo_closed s a r.last_index ha hp]
    split <;> split <;> omega

theorem pendLenD_le (s a g : Nat) (r : Reader) (ha : a < s) :
    pendLenD s a g r ≤ s := by
  unfold pendLenD
  split
  · omega
  · have := distTo_lt s ((r.last_index + 1) % s) a (by omega)
    omega

/-- Effect of a successful write batch on one active reader cursor, stated on
the components of the buffer: the cursor's pending segment grows by exactly
the written batch, its generation lag stays covered, and its distance from
the write head shrinks by the batch length. -/
theorem pend_after_write (d d2 : List (Option T)) (s a g : Nat) (l : List T) (r : Reader)
    (hs2 : 2 ≤ s) (hsU : s < USIZE) (ha : a < s) (hg : g < USIZE)
    (hr : r.last_index < s) (hrg : r.generation < USIZE)
    (hsync : r.generation = g → r.last_index = a)
    (hlag : (USIZE + g - r.generation) % USIZE ≤ pendLenD s a g r)
    (hn : 1 ≤ l.length) (hls : l.length ≤ s)
    (hdist : l.length ≤ r.distance_from ⟨a, s⟩ g)
    (hin : ∀ j (hj : j < l.length), Data.get d2 ((a + 1 + j) % s) = some (l.get ⟨j, hj⟩))
    (hout : ∀ p, (∀ j, j < l.length → p ≠ (a + 1 + j) % s) → Data.get d2 p = Data.get d p) :
    r.generation ≠ (g + 1) % USIZE ∧
    pendLenD s ((a + l.length) % s) ((g + 1) % USIZE) r = pendLenD s a g r + l.length ∧
    pendD d2 s ((a + l.length) % s) ((g + 1) % USIZE) r = pendD d s a g r ++ l.map some ∧
    r.distance_from ⟨(a + l.length) % s, s⟩ ((g + 1) % USIZE)
      = r.distance_from ⟨a, s⟩ g - l.length ∧
    (USIZE + (g + 1) % USIZE - r.generation) % USIZE
      ≤ pendLenD s ((a + l.length) % s) ((g + 1) % USIZE) r := by
  have hstlt : (r.last_index + 1) % s < s := Nat.mod_lt _ (by omega)
  have hpl_s : pendLenD s a g r ≤ s := pendLenD_le s a g r ha
  have hpln : pendLenD s a g r + l.length ≤ s := by
    by_cases hge : r.generation = g
    · have hpl0 : pendLenD s a g r = 0 := by unfold pendLenD; rw [if_pos hge]
      omega
    · have hpl' := pendLenD_eq_sub s a g r ha hr hge
      have hdf : r.distance_from ⟨a, s⟩ g = distTo s a r.last_index := by
        rw [distance_from_eq, if_neg fun hh => hge hh.2]
      rw [hdf] at hdist
      omega
  have key0 : ((r.last_index + 1) % s + pendLenD s a g r) % s = (a + 1) % s := by
    by_cases hge : r.generation = g
    · have hpl0 : pendLenD s a g r = 0 := by unfold pendLenD; rw [if_pos hge]
      rw [hpl0, Nat.add_zero, Nat.mod_eq_of_lt hstlt, hsync hge]
    · have hpl' : pendLenD s a g r = distTo s ((r.last_index + 1) % s) a + 1 := by
        unfold pendLenD; rw [if_neg hge]
      rw [hpl', ← Nat.add_assoc, ← Nat.mod_add_mod,
        add_distTo s ((r.last_index + 1) % s) a hstlt ha]
  have key2 : ((r.last_index + 1) % s + (pendLenD s a g r + (l.length - 1))) % s
      = (a + l.length) % s := by
    rw [← Nat.add_assoc, ← Nat.mod_add_mod, key0, Nat.mod_add_mod,
      show a + 1 + (l.length - 1) = a + l.length by omega]
  have hge2 : r.generation ≠ (g + 1) % USIZE := by
    intro hEq
    unfold USIZE at hg hrg hlag hsU hEq
    omega
  have hpl2 : pendLenD s ((a + l.length) % s) ((g + 1) % USIZE) r
      = pendLenD s a g r + l.length := by
    have h1 : pendLenD s a g r + (l.length - 1) < s := by omega
    have h2 := distTo_of_add s ((r.last_index + 1) % s)
      (pendLenD s a g r + (l.length - 1)) hstlt h1
    rw [key2] at h2
    show (if r.generation = (g + 1) % USIZE then 0
      else distTo s ((r.last_index + 1) % s) ((a + l.length) % s) + 1) = _
    rw [if_neg hge2, h2]
    omega
  have hdd : distTo s ((a + l.length) % s) r.last_index
      = r.distance_from ⟨a, s⟩ g - l.length := by
    have ha2 : (a + l.length) % s < s := Nat.mod_lt _ (by omega)
    by_cases hge : r.generation = g
    · have hra := hsync hge
      have hdfs : r.distance_from ⟨a, s⟩ g = s := by
        rw [distance_from_eq, hra, distTo_self s a ha, if_pos ⟨rfl, hge⟩]
      have h1 : s - l.length < s := by omega
      have h2 := distTo_of_add s ((a + l.length) % s) (s - l.length) ha2 h1
      have h3 : ((a + l.length) % s + (s - l.length)) % s = a := by
        rw [Nat.mod_add_mod, show a + l.length + (s - l.length) = a + s by omega,
          Nat.add_mod_right, Nat.mod_eq_of_lt ha]
      rw [h3] at h2
      rw [hra, hdfs, h2]
    · have hdf : r.distance_from ⟨a, s⟩ g = distTo s a r.last_index := by
        rw [distance_from_eq, if_neg fun hh => hge hh.2]
      have hnd : l.length ≤ distTo s a r.last_index := by rw [← hdf]; exact hdist
      have hdlt : distTo s a r.last_index < s := distTo_lt s a _ (by omega)
      have h1 : distTo s a r.last_index - l.length < s := by omega
      have h2 := distTo_of_add s ((a + l.length) % s)
        (distTo s a r.last_index - l.length) ha2 h1
      have h3 : ((a + l.length) % s + (distTo s a r.last_index - l.length)) % s
          = r.last_index := by
        rw [Nat.mod_add_mod,
          show a + l.length + (distTo s a r.last_index - l.length)
            = a + distTo s a r.last_index by omega]
        exact add_distTo s a r.last_index ha hr
      rw [h3] at h2
      rw [hdf, h2]
  refine ⟨hge2, hpl2, ?_, ?_, ?_⟩
  · unfold pendD
    rw [hpl2, ringSlice_add]
    congr 1
    · apply ringSlice_ext
      intro t ht
      apply hout
      intro j hj hEq
      have hE1 : (a + 1 + j) % s = ((r.last_index + 1) % s + (pendLenD s a g r + j)) % s := by
        conv_rhs => rw [← Nat.add_assoc, ← Nat.mod_add_mod, key0, Nat.mod_add_mod]
      rw [hE1] at hEq
      have := ring_inj s ((r.last_index + 1) % s) t (pendLenD s a g r + j)
        (by omega) (by omega) hEq
      omega
    · apply List.ext_getElem
      · rw [ringSlice_length, List.length_map]
      · intro i h1 h2
        rw [ringSlice_length] at h1
        have e1 := ringSlice_getElem d2 s
          (((r.last_index + 1) % s + pendLenD s a g r) % s) l.length i h1
        rw [List.getD_eq_getElem?_getD,
          List.getElem?_eq_getElem (by rw [ringSlice_length]; exact h1),
          Option.getD_some] at e1
        rw [e1]
        have hpos : (((r.last_index + 1) % s + pendLenD s a g r) % s + i) % s
            = (a + 1 + i) % s := by
          rw [Nat.mod_add_mod, ← Nat.mod_add_mod, key0, Nat.mod_add_mod]
        rw [hpos, hin i h1, List.getElem_map]
        rfl
  · rw [distance_from_eq, if_neg fun hh => hge2 hh.2]
    exact hdd
  · rw [hpl2]
    unfold USIZE at hg hrg hlag hsU ⊢
    omega

/-- Effect of buffer growth on one active reader cursor: growth inserts gb
uninitialized slots right after the write head and shifts the cursors that
sit past the insertion point, which preserves every cursor's pending
segment and pushes its distance from the write head up by exactly gb. -/
theorem pend_after_grow (d : List (Option T)) (s gb a g : Nat) (r r1 : Reader)
    (hs2 : 2 ≤ s) (ha : a < s) (hdl : d.length = s) (hgb : s ≤ gb)
    (hsU2 : s + gb < USIZE)
    (hr : r.last_index < s) (hact : r.active = true)
    (hsync : r.generation = g → r.last_index = a)
    (hr1 : r1 = if r.active && r.needs_shift a g then
      { r with last_index := r.last_index + gb } else r) :
    r1.generation = r.generation ∧
    r1.active = true ∧
    r1.last_index < s + gb ∧
    (r1.generation = g → r1.last_index = a) ∧
    pendLenD (s + gb) a g r1 = pendLenD s a g r ∧
    pendD (Data.grow d ((a + 1) % s) gb) (s + gb) a g r1 = pendD d s a g r ∧
    r1.distance_from ⟨a, s + gb⟩ g = r.distance_from ⟨a, s⟩ g + gb := by
  have hdgb : d.length ≤ gb := by omega
  rcases Nat.lt_trichotomy r.last_index a with hpa | hpa | hpa
  · -- the cursor sits strictly below the write head: not shifted
    have hgne : r.generation ≠ g := fun hh => by have := hsync hh; omega
    have hcond : (r.active && r.needs_shift a g) = false := by
      unfold Reader.needs_shift
      rw [hact, decide_eq_false (by omega : ¬ (a < r.last_index)),
        beq_eq_false_iff_ne.mpr (by omega : r.last_index ≠ a)]
      rfl
    have hr1e : r1 = r := by rw [hr1, hcond]; exact rfl
    rw [hr1e]
    have hdike : distTo s a r.last_index = s - a + r.last_index := by
      rw [distTo_closed s a r.last_index ha hr, if_neg (by omega)]
    have hdike2 : distTo (s + gb) a r.last_index = s + gb - a + r.last_index := by
      rw [distTo_closed (s + gb) a r.last_index (by omega) (by omega), if_neg (by omega)]
    refine ⟨rfl, hact, by omega, fun hh => (hgne hh).elim, ?_, ?_, ?_⟩
    · rw [pendLenD_eq_sub (s + gb) a g r (by omega) (by omega) hgne,
        pendLenD_eq_sub s a g r ha hr hgne, hdike, hdike2]
      omega
    · unfold pendD
      rw [pendLenD_eq_sub (s + gb) a g r (by omega) (by omega) hgne,
        pendLenD_eq_sub s a g r ha hr hgne, hdike, hdike2,
        show s + gb - (s + gb - a + r.last_index) = s - (s - a + r.last_index) by omega]
      apply ringSlice_ext
      intro t ht
      have hstq : r.last_index + 1 < s := by omega
      rw [Nat.mod_eq_of_lt (by omega : r.last_index + 1 < s + gb),
        Nat.mod_eq_of_lt hstq]
      have hq : r.last_index + 1 + t < s := by omega
      rw [Nat.mod_eq_of_lt (by omega : r.last_index + 1 + t < s + gb),
        Nat.mod_eq_of_lt hq]
      exact Data.get_grow_low d ((a + 1) % s) gb (r.last_index + 1 + t) (by omega)
    · rw [distance_from_eq, distance_from_eq, hdike, hdike2,
        if_neg (by omega), if_neg (by omega)]
      omega
  · -- the cursor sits exactly at the write head
    by_cases hge : r.generation = g
    · -- caught up: not shifted, empty pending
      have hcond : (r.active && r.needs_shift a g) = false := by
        unfold Reader.needs_shift
        rw [hact, decide_eq_false (by omega : ¬ (a < r.last_index)),
          beq_iff_eq.mpr hpa, bne_eq_false_iff_eq.mpr hge]
        rfl
      have hr1e : r1 = r := by rw [hr1, hcond]; exact rfl
      rw [hr1e]
      have hpl0 : pendLenD s a g r = 0 := by unfold pendLenD; rw [if_pos hge]
      have hpl02 : pendLenD (s + gb) a g r = 0 := by unfold pendLenD; rw [if_pos hge]
      refine ⟨rfl, hact, by omega, fun _ => hpa, by omega, ?_, ?_⟩
      · unfold pendD
        rw [hpl0, hpl02, ringSlice_zero, ringSlice_zero]
      · rw [distance_from_eq, distance_from_eq, hpa, distTo_self s a ha,
          distTo_self (s + gb) a (by omega), if_pos ⟨rfl, hge⟩, if_pos ⟨rfl, hge⟩]
    · -- one full ring behind: shifted
      have hcond : (r.active && r.needs_shift a g) = true := by
        unfold Reader.needs_shift
        rw [hact, beq_iff_eq.mpr hpa, bne_iff_ne.mpr hge]
        rw [Bool.and_true, Bool.true_and, Bool.or_true]
      have hr1e : r1 = { r with last_index := r.last_index + gb } := by
        rw [hr1, hcond]; exact rfl
      rw [hr1e]
      have hd2 : distTo (s + gb) a (r.last_index + gb) = gb := by
        rw [distTo_closed (s + gb) a (r.last_index + gb) (by omega) (by omega),
          if_pos (by omega)]
        omega
      refine ⟨rfl, ?_, by show r.last_index + gb < s + gb; omega,
        fun hh => (hge hh).elim, ?_, ?_, ?_⟩
      · show (r.last_index + gb != SENT) = true
        exact bne_iff_ne.mpr (lt_sent_of_lt (by omega : r.last_index + gb < s + gb) hsU2)
      · show pendLenD (s + gb) a g { r with last_index := r.last_index + gb }
          = pendLenD s a g r
        rw [pendLenD_eq_sub (s + gb) a g { r with last_index := r.last_index + gb } (by omega) (by show r.last_index + gb < s + gb; omega) hge,
          pendLenD_eq_sub s a g r ha hr hge]
        show s + gb - distTo (s + gb) a (r.last_index + gb) = _
        rw [hd2, hpa, distTo_self s a ha]
        omega
      · unfold pendD
        rw [pendLenD_eq_sub (s + gb) a g { r with last_index := r.last_index + gb } (by omega) (by show r.last_index + gb < s + gb; omega) hge,
          pendLenD_eq_sub s a g r ha hr hge]
        show ringSlice _ (s + gb) ((r.last_index + gb + 1) % (s + gb))
          (s + gb - distTo (s + gb) a (r.last_index + gb)) = _
        rw [hd2, hpa, distTo_self s a ha, Nat.sub_zero,
          show s + gb - gb = s by omega]
        apply ringSlice_ext
        intro t ht
        rw [Nat.mod_add_mod, Nat.mod_add_mod]
        rcases Nat.lt_or_ge (a + 1 + t) s with hc | hc
        · have hc1 : a + 1 < s := by omega
          rw [Nat.mod_eq_of_lt hc,
            Nat.mod_eq_of_lt (by omega : a + gb + 1 + t < s + gb),
            show a + gb + 1 + t = a + 1 + t + gb by omega]
          exact Data.get_grow_high d ((a + 1) % s) gb (a + 1 + t)
            (by rw [Nat.mod_eq_of_lt hc1]; omega) (by omega) hdgb
        · have hq : a + 1 + t - s < s := by omega
          rw [show a + 1 + t = s + (a + 1 + t - s) by omega, Nat.add_mod_left,
            Nat.mod_eq_of_lt hq,
            show a + gb + 1 + t = (s + gb) + (a + 1 + t - s) by omega,
            Nat.add_mod_left, Nat.mod_eq_of_lt (by omega : a + 1 + t - s < s + gb)]
          exact Data.get_grow_low d ((a + 1) % s) gb (a + 1 + t - s) (by omega)
      · rw [distance_from_eq, distance_from_eq]
        show (if distTo (s + gb) a (r.last_index + gb) = 0 ∧ r.generation = g
            then s + gb else distTo (s + gb) a (r.last_index + gb)) = _
        rw [hd2, hpa, distTo_self s a ha, if_neg (by omega),
          if_neg (fun hh => hge hh.2)]
        omega
  · -- the cursor sits past the write head: shifted
    have hgne : r.generation ≠ g := fun hh => by have := hsync hh; omega
    have hcond : (r.active && r.needs_shift a g) = true := by
      unfold Reader.needs_shift
      rw [hact, decide_eq_true (by omega : a < r.last_index)]
      rw [Bool.true_and, Bool.true_or]
    have hr1e : r1 = { r with last_index := r.last_index + gb } := by
      rw [hr1, hcond]; exact rfl
    rw [hr1e]
    have hdike : distTo s a r.last_index = r.last_index - a := by
      rw [distTo_closed s a r.last_index ha hr, if_pos (by omega)]
    have hdike2 : distTo (s + gb) a (r.last_index + gb) = r.last_index + gb - a := by
      rw [distTo_closed (s + gb) a (r.last_index + gb) (by omega) (by omega),
        if_pos (by omega)]
    refine ⟨rfl, ?_, by show r.last_index + gb < s + gb; omega,
      fun hh => (hgne hh).elim, ?_, ?_, ?_⟩
    · show (r.last_index + gb != SENT) = true
      exact bne_iff_ne.mpr (lt_sent_of_lt (by omega : r.last_index + gb < s + gb) hsU2)
    · show pendLenD (s + gb) a g { r with last_index := r.last_index + gb }
        = pendLenD s a g r
      rw [pendLenD_eq_sub (s + gb) a g { r with last_index := r.last_index + gb } (by omega) (by show r.last_index + gb < s + gb; omega) hgne,
        pendLenD_eq_sub s a g r ha hr hgne]
      show s + gb - distTo (s + gb) a (r.last_index + gb) = _
      rw [hdike, hdike2]
      omega
    · unfold pendD
      rw [pendLenD_eq_sub (s + gb) a g { r with last_index := r.last_index + gb } (by omega) (by show r.last_index + gb < s + gb; omega) hgne,
        pendLenD_eq_sub s a g r ha hr hgne]
      show ringSlice _ (s + gb) ((r.last_index + gb + 1) % (s + gb))
        (s + gb - distTo (s + gb) a (r.last_index + gb)) = _
      rw [hdike, hdike2, show s + gb - (r.last_index + gb - a)
        = s - (r.last_index - a) by omega]
      apply ringSlice_ext
      intro t ht
      rw [Nat.mod_add_mod, Nat.mod_add_mod]
      rcases Nat.lt_or_ge (r.last_index + 1 + t) s with hc | hc
      · have hc1 : a + 1 < s := by omega
        rw [Nat.mod_eq_of_lt hc,
          Nat.mod_eq_of_lt (by omega : r.last_index + gb + 1 + t < s + gb),
          show r.last_index + gb + 1 + t = r.last_index + 1 + t + gb by omega]
        exact Data.get_grow_high d ((a + 1) % s) gb (r.last_index + 1 + t)
          (by rw [Nat.mod_eq_of_lt hc1]; omega) (by omega) hdgb
      · have hq : r.last_index + 1 + t - s < s := by omega
        have hqa : r.last_index + 1 + t - s ≤ a := by omega
        rw [show r.last_index + 1 + t = s + (r.last_index + 1 + t - s) by omega,
          Nat.add_mod_left, Nat.mod_eq_of_lt hq,
          show r.last_index + gb + 1 + t = (s + gb) + (r.last_index + 1 + t - s) by omega,
          Nat.add_mod_left,
          Nat.mod_eq_of_lt (by omega : r.last_index + 1 + t - s < s + gb)]
        exact Data.get_grow_low d ((a + 1) % s) gb (r.last_index + 1 + t - s) (by omega)
    · rw [distance_from_eq, distance_from_eq]
      show (if distTo (s + gb) a (r.last_index + gb) = 0 ∧ r.generation = g
          then s + gb else distTo (s + gb) a (r.last_index + gb)) = _
      rw [hdike, hdike2, if_neg (by omega), if_neg (by omega)]
      omega

/-! Growth-loop lemmas. -/

theorem growLoop_spec_fuel : ∀ (fuel size target res : Nat), target - size ≤ fuel →
    size < USIZE → growLoop size target = some res →
    size ≤ res ∧ target ≤ res ∧ res < USIZE ∧ (∃ m, res = 2 ^ m * size) ∧
    ∀ u j, u = 2 ^ j * size → target ≤ u → res ≤ u := by
  intro fuel
  induction fuel with
  | zero =>
    intro size target res hf hU h
    have hts : target ≤ size := by omega
    rw [growLoop, if_neg (by omega)] at h
    have hres : res = size := by
      simpa using h.symm
    subst hres
    refine ⟨le_rfl, hts, hU, ⟨0, by omega⟩, ?_⟩
    intro u j hu htu
    have h1 : 1 ≤ 2 ^ j := Nat.one_le_two_pow
    calc res ≤ 1 * res := by omega
    _ ≤ 2 ^ j * res := Nat.mul_le_mul_right res h1
    _ = u := hu.symm
  | succ fuel ih =>
    intro size target res hf hU h
    by_cases hlt : size < target
    · rw [growLoop, if_pos hlt] at h
      by_cases hg : 0 < size ∧ 2 * size < USIZE
      · rw [if_pos hg] at h
        have hrec := ih (2 * size) target res (by omega) hg.2 h
        obtain ⟨h1, h2, h3, ⟨m, hm⟩, hmin⟩ := hrec
        refine ⟨by omega, h2, h3, ⟨m + 1, by rw [hm]; ring⟩, ?_⟩
        intro u j hu htu
        match j with
        | 0 =>
          rw [hu] at htu
          simp only [pow_zero, one_mul] at htu
          omega
        | j + 1 =>
          refine hmin u j ?_ htu
          rw [hu]
          ring
      · rw [if_neg hg] at h
        exact absurd h (by simp)
    · rw [growLoop, if_neg hlt] at h
      have hres : res = size := by simpa using h.symm
      subst hres
      refine ⟨le_rfl, by omega, hU, ⟨0, by omega⟩, ?_⟩
      intro u j hu htu
      have h1 : 1 ≤ 2 ^ j := Nat.one_le_two_pow
      calc res ≤ 1 * res := by omega
      _ ≤ 2 ^ j * res := Nat.mul_le_mul_right res h1
      _ = u := hu.symm

theorem growLoop_spec (size target res : Nat) (hU : size < USIZE)
    (h : growLoop size target = some res) :
    size ≤ res ∧ target ≤ res ∧ res < USIZE ∧ (∃ m, res = 2 ^ m * size) ∧
    ∀ u j, u = 2 ^ j * size → target ≤ u → res ≤ u :=
  growLoop_spec_fuel (target - size) size target res le_rfl hU h

/-! Registry maintenance lemmas. -/

theorem remove_spec (m : ReaderMeta) (id : Nat) :
    (m.remove id).readers.length = m.readers.length ∧
    (m.remove id).free = id :: m.free ∧
    (∀ i, i ≠ id → (m.remove id).readers[i]? = m.readers[i]?) ∧
    (∀ r', (m.remove id).readers[id]? = some r' → r'.active = false) := by
  refine ⟨List.length_set m.readers id _, rfl, ?_, ?_⟩
  · intro i hi
    exact List.getElem?_set_ne fun hh => hi hh.symm
  · intro r' hr'
    unfold ReaderMeta.remove at hr'
    simp only at hr'
    rw [List.getElem?_set] at hr'
    rw [if_pos rfl] at hr'
    by_cases hlen : id < m.readers.length
    · rw [if_pos hlen] at hr'
      have : r' = (m.readers.getD id ⟨0, SENT⟩).set_inactive := by
        injection hr' with hh
        exact hh.symm
      rw [this]
      show (SENT != SENT) = false
      exact bne_self_eq_false SENT
    · rw [if_neg hlen] at hr'
      exact absurd hr' (by simp)

theorem maintain_fold_spec (ids : List Nat) : ∀ m : ReaderMeta,
    (ids.foldl ReaderMeta.remove m).readers.length = m.readers.length ∧
    (∀ i, i ∉ ids → (ids.foldl ReaderMeta.remove m).readers[i]? = m.readers[i]?) ∧
    (∀ (i : Nat) (r' : Reader),
      (ids.foldl ReaderMeta.remove m).readers[i]? = some r' → r'.active = true →
      m.readers[i]? = some r') ∧
    (∀ x, x ∈ (ids.foldl ReaderMeta.remove m).free → x ∈ ids ∨ x ∈ m.free) := by
  induction ids with
  | nil =>
    intro m
    refine ⟨rfl, fun i _ => rfl, fun i r' h _ => h, fun x hx => Or.inr hx⟩
  | cons id ids ih =>
    intro m
    obtain ⟨rlen, rfree, rne, rself⟩ := remove_spec m id
    obtain ⟨ilen, ine, iact, ifree⟩ := ih (m.remove id)
    rw [List.foldl_cons]
    refine ⟨by rw [ilen, rlen], ?_, ?_, ?_⟩
    · intro i hi
      have hi1 : i ∉ ids := fun hh => hi (List.mem_cons_of_mem id hh)
      have hi2 : i ≠ id := fun hh => hi (hh ▸ List.mem_cons_self id ids)
      rw [ine i hi1, rne i hi2]
    · intro i r' h ha
      have h1 := iact i r' h ha
      by_cases hi : i = id
      · subst hi
        exact absurd ha (by rw [rself r' h1]; simp)
      · rw [← rne i hi]
        exact h1
    · intro x hx
      rcases ifree x hx with h | h
      · exact Or.inl (List.mem_cons_of_mem id h)
      · rw [remove_spec m id |>.2.1] at h
        rcases List.mem_cons.mp h with h | h
        · exact Or.inl (h ▸ List.mem_cons_self id ids)
        · exact Or.inr h

theorem maintain_nil (b : RingBuffer T) (h : b.pending = []) : b.maintain = b := by
  obtain ⟨av, li, dd, g, iid, meta, pending⟩ := b
  simp only at h
  subst h
  rfl

/-! Nearest-reader lemmas. -/

theorem nearest_dist_none_of (m : ReaderMeta) (last : CircularIndex) (g : Nat)
    (h : ∀ r ∈ m.readers, ¬ r.active = true) :
    m.nearest_dist last g = none := by
  unfold ReaderMeta.nearest_dist
  rw [List.filter_eq_nil_iff.mpr h]
  rfl

theorem nearest_dist_none_elim (m : ReaderMeta) (last : CircularIndex) (g : Nat)
    (h : m.nearest_dist last g = none) :
    ∀ r ∈ m.readers, r.active = false := by
  intro r hr
  by_contra hact
  have hact2 : r.active = true := by
    cases hh : r.active
    · exact absurd hh hact
    · rfl
  have hmem : r.distance_from last g ∈
      (m.readers.filter fun r => r.active).map fun r => r.distance_from last g :=
    List.mem_map_of_mem _ (List.mem_filter.mpr ⟨hr, hact2⟩)
  unfold ReaderMeta.nearest_dist at h
  rw [List.min?_eq_none_iff] at h
  rw [h] at hmem
  exact absurd hmem (List.not_mem_nil _)

theorem nearest_dist_some_elim (m : ReaderMeta) (last : CircularIndex) (g left : Nat)
    (h : m.nearest_dist last g = some left) :
    (∃ r, r ∈ m.readers ∧ r.active = true ∧ r.distance_from last g = left) ∧
    ∀ r ∈ m.readers, r.active = true → left ≤ r.distance_from last g := by
  unfold ReaderMeta.nearest_dist at h
  rw [List.min?_eq_some_iff (fun a => le_refl a) (fun a b => min_choice a b)
    (fun a b c => le_min_iff)] at h
  obtain ⟨hmem, hle⟩ := h
  constructor
  · obtain ⟨r, hr, hrd⟩ := List.mem_map.mp hmem
    obtain ⟨hrm, hra⟩ := List.mem_filter.mp hr
    exact ⟨r, hrm, hra, hrd⟩
  · intro r hr ha
    exact hle _ (List.mem_map_of_mem _ (List.mem_filter.mpr ⟨hr, ha⟩))

/-! Buffer-level maintain lemma. -/

theorem maintain_spec (b : RingBuffer T) (hWF : WF b) :
    WF b.maintain ∧ b.maintain.pending = [] ∧
    b.maintain.available = b.available ∧ b.maintain.last_index = b.last_index ∧
    b.maintain.data = b.data ∧ b.maintain.generation = b.generation ∧
    b.maintain.instance_id = b.instance_id ∧
    b.maintain.meta.readers.length = b.meta.readers.length ∧
    (∀ i, i ∉ b.pending → b.maintain.meta.readers[i]? = b.meta.readers[i]?) ∧
    (∀ (i : Nat) (r' : Reader), b.maintain.meta.readers[i]? = some r' →
      r'.active = true → b.meta.readers[i]? = some r') := by
  obtain ⟨flen, fne, fact, ffree⟩ := maintain_fold_spec b.pending b.meta
  unfold WF at hWF
  obtain ⟨h2, h2U, hdl, hli, hgU, hav, hfree, hpend, hrd⟩ := hWF
  have hmem : ∀ r' ∈ b.maintain.meta.readers, r'.active = true → r' ∈ b.meta.readers := by
    intro r' hr' ha
    obtain ⟨i, hie⟩ := List.mem_iff_getElem?.mp hr'
    exact List.getElem?_mem (fact i r' hie ha)
  refine ⟨?_, rfl, rfl, rfl, rfl, rfl, rfl, flen, fne, fact⟩
  refine ⟨h2, h2U, hdl, hli, hgU, hav, ?_, ?_, ?_⟩
  · intro id hid
    show id < (b.pending.foldl ReaderMeta.remove b.meta).readers.length
    rw [flen]
    rcases ffree id hid with h | h
    · exact hpend id h
    · exact hfree id h
  · intro id hid
    exact absurd hid (List.not_mem_nil id)
  · intro r' hr' ha
    exact hrd r' (hmem r' hr' ha) ha

theorem shift_readers (m : ReaderMeta) (a g gb : Nat) :
    (m.shift a g gb).readers = m.readers.map fun r =>
      if r.active && r.needs_shift a g then { r with last_index := r.last_index + gb }
      else r := rfl

theorem shift_free (m : ReaderMeta) (a g gb : Nat) : (m.shift a g gb).free = m.free := rfl

theorem distance_from_le (r : Reader) (a s g : Nat) (hs : 0 < s) :
    r.distance_from ⟨a, s⟩ g ≤ s := by
  rw [distance_from_eq]
  split
  · exact le_rfl
  · exact Nat.le_of_lt (distTo_lt s a r.last_index hs)

/-- The growing branch of ensure_additional_slow, stated for a buffer with an
empty drop channel: capacity moves to the growLoop result, the data store
grows at the slot after the write head, cursors past it are shifted, and
every active reader keeps its pending segment while gaining room. -/
theorem grow_branch_spec (b0 b1 : RingBuffer T) (num left snew : Nat)
    (hWF0 : WF b0) (hp0 : b0.pending = [])
    (hnd : b0.meta.nearest_dist b0.last_index b0.generation = some left)
    (hlt : left < num)
    (hov1 : b0.last_index.size + (num - left) < USIZE)
    (hov2 : 2 * b0.last_index.size < USIZE)
    (hloop : growLoop (2 * b0.last_index.size)
      (b0.last_index.size + (num - left)) = some snew)
    (hb1 : b1 = { b0 with
      data := Data.grow b0.data (b0.last_index.add 1) (snew - b0.last_index.size)
      last_index := { b0.last_index with size := snew }
      meta := b0.meta.shift b0.last_index.index b0.generation
        (snew - b0.last_index.size)
      available := (snew - b0.last_index.size) + left }) :
    WF b1 ∧ b1.instance_id = b0.instance_id ∧
    b1.meta.readers.length = b0.meta.readers.length ∧
    b0.last_index.size ≤ b1.last_index.size ∧
    b1.pending = b0.pending ∧ b1.generation = b0.generation ∧
    b1.last_index.index = b0.last_index.index ∧
    num ≤ b1.available ∧
    (∃ j, b1.last_index.size = 2 ^ j * b0.last_index.size) ∧
    ∀ (i : Nat) (r : Reader), b0.meta.readers[i]? = some r → r.active = true →
      ∃ r' : Reader, b1.meta.readers[i]? = some r' ∧ r'.active = true ∧
        pend b1 r' = pend b0 r := by
  obtain ⟨gs1, gs2, gs3, hpow, gmin⟩ :=
    growLoop_spec (2 * b0.last_index.size) (b0.last_index.size + (num - left))
      snew hov2 hloop
  have hWF0c := hWF0
  unfold WF at hWF0c
  obtain ⟨h2, h2U, hdl, hli, hgU, hav, hfree, hpend, hrd⟩ := hWF0c
  have hgb_s : b0.last_index.size ≤ snew - b0.last_index.size := by omega
  have hseq : b0.last_index.size + (snew - b0.last_index.size) = snew := by omega
  have hsU2 : b0.last_index.size + (snew - b0.last_index.size) < USIZE := by omega
  obtain ⟨hex, hmin⟩ := nearest_dist_some_elim _ _ _ _ hnd
  obtain ⟨r0, hr0m, hr0a, hr0d⟩ := hex
  have hleft_s : left ≤ b0.last_index.size := by
    rw [← hr0d]
    exact distance_from_le r0 b0.last_index.index b0.last_index.size
      b0.generation (by omega)
  have hcur : b0.last_index.add 1 < b0.data.length := by
    rw [hdl]
    exact Nat.mod_lt _ (by omega)
  have hdlgb : b0.data.length ≤ snew - b0.last_index.size := by omega
  have hgrow_len : (Data.grow b0.data (b0.last_index.add 1)
      (snew - b0.last_index.size)).length = snew := by
    rw [Data.grow_length b0.data _ _ (by omega) hdlgb, hdl]
    omega
  -- the shift map, applied to one entry
  have hperR : ∀ r : Reader, r ∈ b0.meta.readers → r.active = true →
      ((if r.active && r.needs_shift b0.last_index.index b0.generation then
        { r with last_index := r.last_index + (snew - b0.last_index.size) }
        else r).generation = r.generation ∧
      (if r.active && r.needs_shift b0.last_index.index b0.generation then
        { r with last_index := r.last_index + (snew - b0.last_index.size) }
        else r).active = true ∧
      (if r.active && r.needs_shift b0.last_index.index b0.generation then
        { r with last_index := r.last_index + (snew - b0.last_index.size) }
        else r).last_index < b0.last_index.size + (snew - b0.last_index.size) ∧
      ((if r.active && r.needs_shift b0.last_index.index b0.generation then
        { r with last_index := r.last_index + (snew - b0.last_index.size) }
        else r).generation = b0.generation →
        (if r.active && r.needs_shift b0.last_index.index b0.generation then
        { r with last_index := r.last_index + (snew - b0.last_index.size) }
        else r).last_index = b0.last_index.index) ∧
      pendLenD (b0.last_index.size + (snew - b0.last_index.size)) b0.last_index.index
        b0.generation (if r.active && r.needs_shift b0.last_index.index b0.generation then
        { r with last_index := r.last_index + (snew - b0.last_index.size) }
        else r) = pendLenD b0.last_index.size b0.last_index.index b0.generation r ∧
      pendD (Data.grow b0.data ((b0.last_index.index + 1) % b0.last_index.size)
          (snew - b0.last_index.size))
        (b0.last_index.size + (snew - b0.last_index.size)) b0.last_index.index
        b0.generation (if r.active && r.needs_shift b0.last_index.index b0.generation then
        { r with last_index := r.last_index + (snew - b0.last_index.size) }
        else r) = pendD b0.data b0.last_index.size b0.last_index.index b0.generation r ∧
      (if r.active && r.needs_shift b0.last_index.index b0.generation then
        { r with last_index := r.last_index + (snew - b0.last_index.size) }
        else r).distance_from
          ⟨b0.last_index.index, b0.last_index.size + (snew - b0.last_index.size)⟩
          b0.generation
        = r.distance_from ⟨b0.last_index.index, b0.last_index.size⟩ b0.generation
          + (snew - b0.last_index.size)) := by
    intro r hr ha
    obtain ⟨hra, hrg, hrd2, hrs, hrl⟩ := hrd r hr ha
    exact pend_after_grow b0.data b0.last_index.size (snew - b0.last_index.size)
      b0.last_index.index b0.generation r _ h2 hli hdl hgb_s hsU2 hra ha hrs rfl
  subst hb1
  obtain ⟨m, hm⟩ := hpow
  refine ⟨?_, rfl, List.length_map _ _, by dsimp only; omega, rfl, rfl, rfl,
    by dsimp only; omega,
    ⟨m + 1, by show snew = 2 ^ (m + 1) * b0.last_index.size; rw [hm]; ring⟩, ?_⟩
  · unfold WF
    refine ⟨by dsimp only; omega, by dsimp only; exact gs3, ?_, ?_, hgU, ?_, ?_, ?_, ?_⟩
    · exact hgrow_len
    · dsimp only
      omega
    · dsimp only
      omega
    · intro id hid
      dsimp only at hid ⊢
      rw [shift_free] at hid
      rw [shift_readers, List.length_map]
      exact hfree id hid
    · intro id hid
      dsimp only at hid ⊢
      rw [shift_readers, List.length_map]
      exact hpend id hid
    · intro r1 hr1 ha1
      dsimp only at hr1
      rw [shift_readers] at hr1
      obtain ⟨r, hr, hrf⟩ := List.mem_map.mp hr1
      by_cases hra : r.active = true
      · obtain ⟨pg1, pg2, pg3, pg4, pg5, pg6, pg7⟩ := hperR r hr hra
        rw [hrf] at pg1 pg2 pg3 pg4 pg5 pg6 pg7
        obtain ⟨hq1, hq2, hq3, hq4, hq5⟩ := hrd r hr hra
        rw [hseq] at pg3 pg5 pg7
        refine ⟨pg3, by rw [pg1]; exact hq2, ?_, pg4, ?_⟩
        · show snew - b0.last_index.size + left
            ≤ r1.distance_from ⟨b0.last_index.index, snew⟩ b0.generation
          have hld : left ≤ r.distance_from
              ⟨b0.last_index.index, b0.last_index.size⟩ b0.generation :=
            hmin r hr hra
          rw [pg7]
          omega
        · show (USIZE + b0.generation - r1.generation) % USIZE
            ≤ pendLenD snew b0.last_index.index b0.generation r1
          rw [pg1, pg5]
          exact hq5
      · have hrf2 : r1 = r := by
          rw [← hrf]
          have : r.active = false := by
            cases hh : r.active
            · rfl
            · exact absurd hh hra
          rw [this]
          rfl
        rw [hrf2] at ha1
        exact absurd ha1 hra
  · intro i r hi ha
    obtain ⟨pg1, pg2, pg3, pg4, pg5, pg6, pg7⟩ := hperR r (List.getElem?_mem hi) ha
    refine ⟨_, ?_, pg2, ?_⟩
    · dsimp only
      rw [shift_readers, List.getElem?_map, hi]
      rfl
    · show pendD (Data.grow b0.data ((b0.last_index.index + 1) % b0.last_index.size)
          (snew - b0.last_index.size)) snew b0.last_index.index b0.generation _
        = pendD b0.data b0.last_index.size b0.last_index.index b0.generation r
      rw [hseq] at pg6
      exact pg6

/-- Effect of ensure_additional on the state: capacity may grow, every
active reader entry keeps its pending segment, and entries of readers whose
ids are not in the drop channel survive. -/
theorem ensure_spec (b b1 : RingBuffer T) (num : Nat)
    (hWF : WF b) (he : b.ensure_additional num = some b1) :
    WF b1 ∧ b1.instance_id = b.instance_id ∧
    b1.meta.readers.length = b.meta.readers.length ∧
    b.last_index.size ≤ b1.last_index.size ∧
    (b1.pending = [] ∨ b1.pending = b.pending) ∧
    b1.generation = b.generation ∧
    b1.last_index.index = b.last_index.index ∧
    (∃ j, b1.last_index.size = 2 ^ j * b.last_index.size) ∧
    ∀ (i : Nat) (r : Reader), b.meta.readers[i]? = some r → r.active = true →
      i ∉ b.pending →
      ∃ r' : Reader, b1.meta.readers[i]? = some r' ∧ r'.active = true ∧
        pend b1 r' = pend b r := by
  unfold RingBuffer.ensure_additional at he
  by_cases hfast : num ≤ b.available
  · rw [if_pos hfast] at he
    have hb : b1 = b := by injection he with hh; exact hh.symm
    subst hb
    exact ⟨hWF, rfl, rfl, le_rfl, Or.inr rfl, rfl, rfl, ⟨0, by omega⟩,
      fun i r hi ha _ => ⟨r, hi, ha, rfl⟩⟩
  · rw [if_neg hfast] at he
    obtain ⟨hmWF, hmp, hmav, hmli, hmd, hmg, hmid, hmlen, hmne, hmact⟩ := maintain_spec b hWF
    unfold RingBuffer.ensure_additional_slow at he
    dsimp only at he
    rcases hnd : (b.maintain).meta.nearest_dist (b.maintain).last_index
        (b.maintain).generation with _ | left
    · rw [hnd] at he
      dsimp only at he
      have hb : b1 = { b.maintain with available := (b.maintain).last_index.size } := by
        injection he with hh
        exact hh.symm
      have hnone := nearest_dist_none_elim _ _ _ hnd
      obtain ⟨m2, m2U, mdl, mli, mgU, mav, mfree, mpend, mrd⟩ := hmWF
      subst hb
      refine ⟨⟨m2, m2U, mdl, mli, mgU, le_rfl, mfree, mpend, ?_⟩,
        hmid, hmlen, by rw [hmli], Or.inl hmp, hmg, by rw [hmli],
        ⟨0, by rw [hmli]; omega⟩, ?_⟩
      · intro r hr ha
        exact absurd ha (by rw [hnone r hr]; simp)
      · intro i r hi ha hip
        have h1 : (b.maintain).meta.readers[i]? = some r := by rw [hmne i hip, hi]
        have h2 := hnone r (List.getElem?_mem h1)
        rw [h2] at ha
        exact absurd ha (by simp)
    · rw [hnd] at he
      dsimp only at he
      by_cases hle : num ≤ left
      · rw [if_pos hle] at he
        have hb : b1 = { b.maintain with available := left } := by
          injection he with hh
          exact hh.symm
        obtain ⟨hex, hmin⟩ := nearest_dist_some_elim _ _ _ _ hnd
        obtain ⟨m2, m2U, mdl, mli, mgU, mav, mfree, mpend, mrd⟩ := hmWF
        obtain ⟨r0, hr0m, hr0a, hr0d⟩ := hex
        have hleft_s : left ≤ (b.maintain).last_index.size := by
          have h1 := (mrd r0 hr0m hr0a).1
          have h2 := distance_from_le r0 (b.maintain).last_index.index
            (b.maintain).last_index.size (b.maintain).generation (by omega)
          rw [← hr0d]
          exact h2
        subst hb
        refine ⟨⟨m2, m2U, mdl, mli, mgU, hleft_s, mfree, mpend, ?_⟩,
          hmid, hmlen, by rw [hmli], Or.inl hmp, hmg, by rw [hmli],
          ⟨0, by rw [hmli]; omega⟩, ?_⟩
        · intro r hr ha
          obtain ⟨hra, hrg, hrd, hrs, hrl⟩ := mrd r hr ha
          exact ⟨hra, hrg, hmin r hr ha, hrs, hrl⟩
        · intro i r hi ha hip
          have h1 : (b.maintain).meta.readers[i]? = some r := by rw [hmne i hip, hi]
          exact ⟨r, h1, ha, rfl⟩
      · rw [if_neg hle] at he
        by_cases hov : (b.maintain).last_index.size + (num - left) < USIZE ∧
            2 * (b.maintain).last_index.size < USIZE
        · rw [if_pos hov] at he
          rcases hgl : growLoop (2 * (b.maintain).last_index.size)
              ((b.maintain).last_index.size + (num - left)) with _ | snew
          · rw [hgl] at he
            exact absurd he (by simp)
          · rw [hgl] at he
            dsimp only at he
            have hb : b1 = { b.maintain with
                data := Data.grow (b.maintain).data ((b.maintain).last_index.add 1)
                  (snew - (b.maintain).last_index.size)
                last_index := { (b.maintain).last_index with size := snew }
                meta := (b.maintain).meta.shift (b.maintain).last_index.index
                  (b.maintain).generation (snew - (b.maintain).last_index.size)
                available := (snew - (b.maintain).last_index.size) + left } := by
              injection he with hh
              exact hh.symm
            obtain ⟨gWF, gid, glen, gsz, gp, gg, gli, _, gpow, gr⟩ :=
              grow_branch_spec (b.maintain) b1 num left snew hmWF hmp hnd
                (by omega) hov.1 hov.2 hgl hb
            have hmsz : (b.maintain).last_index.size = b.last_index.size := by
              rw [hmli]
            refine ⟨gWF, by rw [gid, hmid], by rw [glen, hmlen], ?_,
              Or.inl (by rw [gp]; exact hmp),
              by rw [gg, hmg], by rw [gli, hmli], ?_, ?_⟩
            · rw [← hmsz]
              exact gsz
            · rw [← hmsz]
              exact gpow
            · intro i r hi ha hip
              have h1 : (b.maintain).meta.readers[i]? = some r := by rw [hmne i hip, hi]
              obtain ⟨r', hr1, hr2, hr3⟩ := gr i r h1 ha
              exact ⟨r', hr1, hr2, hr3⟩
        · rw [if_neg hov] at he
          exact absurd he (by simp)
theorem circ_ext (c : CircularIndex) (i s : Nat) (h1 : c.index = i) (h2 : c.size = s) :
    c = ⟨i, s⟩ := by
  cases c
  simp only at h1 h2
  rw [h1, h2]

/-- Effect of the write loop and the final bookkeeping of iter_write, for a
batch that fits in the available space: every active reader entry is
untouched and its pending segment grows by exactly the batch. -/
theorem write_finish (b1 b2 : RingBuffer T) (l : List T) (hn : 1 ≤ l.length)
    (hWF1 : WF b1) (hchk : l.length ≤ b1.available)
    (hb2 : b2 = { writeAll b1 l with
      available := (writeAll b1 l).available - l.length
      generation := ((writeAll b1 l).generation + 1) % USIZE }) :
    WF b2 ∧ b2.instance_id = b1.instance_id ∧ b2.meta = b1.meta ∧
    b2.pending = b1.pending ∧ b2.last_index.size = b1.last_index.size ∧
    ∀ (i : Nat) (r : Reader), b1.meta.readers[i]? = some r → r.active = true →
      pend b2 r = pend b1 r ++ l.map some := by
  obtain ⟨fsz, fav, fgen, fiid, fmeta, fpend, fdl⟩ := writeAll_frame l b1
  have hWF1c := hWF1
  unfold WF at hWF1c
  obtain ⟨h2, h2U, hdl, hli, hgU, hav, hfree, hpend, hrd⟩ := hWF1c
  have hlast2 := writeAll_last l b1 hli
  have hls : l.length ≤ b1.last_index.size := le_trans hchk hav
  have hW : (writeAll b1 l).last_index =
      ⟨(b1.last_index.index + l.length) % b1.last_index.size, b1.last_index.size⟩ :=
    circ_ext _ _ _ hlast2 fsz
  have hUpos : 0 < USIZE := by unfold USIZE; omega
  have hmodU : ((writeAll b1 l).generation + 1) % USIZE
      = (b1.generation + 1) % USIZE := by rw [fgen]
  have hperR : ∀ r : Reader, r ∈ b1.meta.readers → r.active = true →
      r.generation ≠ (b1.generation + 1) % USIZE ∧
      pendLenD b1.last_index.size
        ((b1.last_index.index + l.length) % b1.last_index.size)
        ((b1.generation + 1) % USIZE) r
        = pendLenD b1.last_index.size b1.last_index.index b1.generation r + l.length ∧
      pendD (writeAll b1 l).data b1.last_index.size
        ((b1.last_index.index + l.length) % b1.last_index.size)
        ((b1.generation + 1) % USIZE) r
        = pendD b1.data b1.last_index.size b1.last_index.index b1.generation r
          ++ l.map some ∧
      r.distance_from
        ⟨(b1.last_index.index + l.length) % b1.last_index.size, b1.last_index.size⟩
        ((b1.generation + 1) % USIZE)
        = r.distance_from ⟨b1.last_index.index, b1.last_index.size⟩ b1.generation
          - l.length ∧
      (USIZE + (b1.generation + 1) % USIZE - r.generation) % USIZE
        ≤ pendLenD b1.last_index.size
          ((b1.last_index.index + l.length) % b1.last_index.size)
          ((b1.generation + 1) % USIZE) r := by
    intro r hr ha
    obtain ⟨hq1, hq2, hq3, hq4, hq5⟩ := hrd r hr ha
    exact pend_after_write b1.data (writeAll b1 l).data b1.last_index.size
      b1.last_index.index b1.generation l r h2 h2U hli hgU hq1 hq2 hq4 hq5 hn hls
      (le_trans hchk hq3)
      (writeAll_get_in l b1 hls hdl hli)
      (fun p hp => writeAll_get_out l b1 p hli hp)
  subst hb2
  refine ⟨?_, fiid, fmeta, fpend, fsz, ?_⟩
  · unfold WF
    dsimp only
    rw [fmeta, fpend, fav, fdl, hW]
    refine ⟨h2, h2U, hdl, Nat.mod_lt _ (by omega), Nat.mod_lt _ hUpos,
      by show b1.available - l.length ≤ b1.last_index.size; omega,
      hfree, hpend, ?_⟩
    intro r hr ha
    obtain ⟨hq1, hq2, hq3, hq4, hq5⟩ := hrd r hr ha
    obtain ⟨pw1, pw2, pw3, pw4, pw5⟩ := hperR r hr ha
    unfold RInv
    dsimp only
    rw [hmodU]
    refine ⟨hq1, hq2, ?_, fun hh => absurd hh pw1, ?_⟩
    · rw [pw4]
      have hq3b : b1.available ≤ r.distance_from
          ⟨b1.last_index.index, b1.last_index.size⟩ b1.generation := hq3
      omega
    · exact pw5
  · intro i r hi ha
    have hrm : r ∈ b1.meta.readers := List.getElem?_mem hi
    obtain ⟨pw1, pw2, pw3, pw4, pw5⟩ := hperR r hrm ha
    show pendD (writeAll b1 l).data ((writeAll b1 l).last_index.size)
      ((writeAll b1 l).last_index.index) (((writeAll b1 l).generation + 1) % USIZE) r
      = pendD b1.data b1.last_index.size b1.last_index.index b1.generation r
        ++ l.map some
    rw [fsz, hlast2, hmodU]
    exact pw3

/-- Full specification of a successful iter_write: the invariant is
preserved, capacity never shrinks, and the pending segment of every
surviving active reader grows by exactly the written batch. -/
theorem iter_write_spec (b b' : RingBuffer T) (l : List T)
    (hWF : WF b) (hw : b.iter_write l = some b') :
    WF b' ∧ b'.instance_id = b.instance_id ∧
    b'.meta.readers.length = b.meta.readers.length ∧
    b.last_index.size ≤ b'.last_index.size ∧
    (b'.pending = [] ∨ b'.pending = b.pending) ∧
    (∃ j, b'.last_index.size = 2 ^ j * b.last_index.size) ∧
    ∀ (i : Nat) (r : Reader), b.meta.readers[i]? = some r → r.active = true →
      i ∉ b.pending →
      ∃ r' : Reader, b'.meta.readers[i]? = some r' ∧ r'.active = true ∧
        pend b' r' = pend b r ++ l.map some := by
  unfold RingBuffer.iter_write at hw
  by_cases hl0 : l.length = 0
  · rw [if_pos hl0] at hw
    have hb : b' = b := by injection hw with hh; exact hh.symm
    subst hb
    have hnil : l = [] := List.length_eq_zero.mp hl0
    subst hnil
    refine ⟨hWF, rfl, rfl, le_rfl, Or.inr rfl, ⟨0, by omega⟩, ?_⟩
    intro i r hi ha hip
    exact ⟨r, hi, ha, by rw [List.map_nil, List.append_nil]⟩
  · rw [if_neg hl0] at hw
    rcases he : b.ensure_additional l.length with _ | b1
    · rw [he] at hw
      exact absurd hw (by simp)
    · rw [he] at hw
      dsimp only at hw
      by_cases hchk : l.length ≤ (writeAll b1 l).available
      · rw [if_pos hchk] at hw
        have hb : b' = { writeAll b1 l with
            available := (writeAll b1 l).available - l.length
            generation := ((writeAll b1 l).generation + 1) % USIZE } := by
          injection hw with hh
          exact hh.symm
        obtain ⟨eWF, eid, elen, esz, ep, eg, eli, epow, etr⟩ :=
          ensure_spec b b1 l.length hWF he
        have hchk1 : l.length ≤ b1.available := by
          rw [← (writeAll_frame l b1).2.1]
          exact hchk
        obtain ⟨wWF, wid, wmeta, wpend, wsz, wtr⟩ :=
          write_finish b1 b' l (by omega) eWF hchk1 hb
        refine ⟨wWF, by rw [wid, eid], by rw [wmeta, elen], by rw [wsz]; exact esz,
          ?_, by rw [wsz]; exact epow, ?_⟩
        · rw [wpend]
          exact ep
        · intro i r hi ha hip
          obtain ⟨r', hr1, hr2, hr3⟩ := etr i r hi ha hip
          have h4 := wtr i r' hr1 hr2
          refine ⟨r', ?_, hr2, ?_⟩
          · rw [wmeta]
            exact hr1
          · rw [h4, hr3]
      · rw [if_neg hchk] at hw
        exact absurd hw (by simp)

/-! Read, register, drop and would_write lemmas. -/

theorem read_mismatch (b : RingBuffer T) (rid : ReaderId)
    (h : rid.reference ≠ b.instance_id) : b.read rid = none := by
  unfold RingBuffer.read
  rw [if_neg h]

theorem read_missing (b : RingBuffer T) (rid : ReaderId)
    (href : rid.reference = b.instance_id)
    (h : b.meta.readers[rid.id]? = none) : b.read rid = none := by
  unfold RingBuffer.read
  rw [if_pos href, h]

/-- Full specification of a successful read: it yields exactly the reader's
pending events, moves the cursor to the write head and current generation,
and leaves everything but that one registry entry unchanged. -/
theorem read_spec (b : RingBuffer T) (rid : ReaderId) (r : Reader)
    (hWF : WF b) (href : rid.reference = b.instance_id)
    (hi : b.meta.readers[rid.id]? = some r) (ha : r.active = true) :
    b.read rid = some ({ b with meta := { b.meta with
        readers := b.meta.readers.set rid.id ⟨b.generation, b.last_index.index⟩ } },
      pend b r) := by
  have hWFc := hWF
  unfold WF at hWFc
  obtain ⟨h2, h2U, hdl, hli, hgU, hav, hfree, hpend, hrd⟩ := hWFc
  obtain ⟨hq1, hq2, hq3, hq4, hq5⟩ := hrd r (List.getElem?_mem hi) ha
  unfold RingBuffer.read
  rw [if_pos href, hi]
  dsimp only
  by_cases hge : r.generation = b.generation
  · rw [if_pos hge]
    have hout : collectSteps b.data b.last_index.index
        (CircularIndex.magic b.last_index.size)
        (iterLen (CircularIndex.magic b.last_index.size) b.last_index.index) = [] := by
      have hlen : iterLen (CircularIndex.magic b.last_index.size) b.last_index.index
          = 0 := by
        unfold iterLen CircularIndex.magic
        rw [if_pos rfl]
      rw [hlen]
      rfl
    rw [hout]
    have hpd : pend b r = [] := by
      unfold pend pendD pendLenD
      rw [if_pos hge]
      rfl
    rw [hpd]
  · rw [if_neg hge]
    have hstart : CircularIndex.add ⟨r.last_index, b.last_index.size⟩ 1
        = (r.last_index + 1) % b.last_index.size := rfl
    have hstlt : (r.last_index + 1) % b.last_index.size < b.last_index.size :=
      Nat.mod_lt _ (by omega)
    have hlen : iterLen ⟨(r.last_index + 1) % b.last_index.size, b.last_index.size⟩
        b.last_index.index
        = distTo b.last_index.size ((r.last_index + 1) % b.last_index.size)
            b.last_index.index + 1 := by
      unfold iterLen
      rw [if_neg (lt_sent_of_lt hstlt h2U)]
      rfl
    rw [hstart, hlen,
      collectSteps_eq b.data b.last_index.size b.last_index.index h2U hli _
        ((r.last_index + 1) % b.last_index.size) hstlt rfl]
    have hpd : pend b r = ringSlice b.data b.last_index.size
        ((r.last_index + 1) % b.last_index.size)
        (distTo b.last_index.size ((r.last_index + 1) % b.last_index.size)
          b.last_index.index + 1) := by
      unfold pend pendD pendLenD
      rw [if_neg hge]
    rw [hpd]

/-- The state after a successful read is well-formed and differs only at the
read entry, which is caught up with an empty pending segment. -/
theorem read_post (b : RingBuffer T) (rid : ReaderId) (r : Reader) (b2 : RingBuffer T)
    (hWF : WF b)
    (hi : b.meta.readers[rid.id]? = some r)
    (hb2 : b2 = { b with meta := { b.meta with
      readers := b.meta.readers.set rid.id ⟨b.generation, b.last_index.index⟩ } }) :
    WF b2 ∧ b2.meta.readers.length = b.meta.readers.length ∧
    b2.pending = b.pending ∧ b2.instance_id = b.instance_id ∧
    b2.data = b.data ∧ b2.last_index = b.last_index ∧
    b2.generation = b.generation ∧ b2.available = b.available ∧
    b2.meta.readers[rid.id]? = some ⟨b.generation, b.last_index.index⟩ ∧
    (∀ j, j ≠ rid.id → b2.meta.readers[j]? = b.meta.readers[j]?) ∧
    pend b2 (⟨b.generation, b.last_index.index⟩ : Reader) = [] := by
  have hWFc := hWF
  unfold WF at hWFc
  obtain ⟨h2, h2U, hdl, hli, hgU, hav, hfree, hpend, hrd⟩ := hWFc
  have hidlt : rid.id < b.meta.readers.length := by
    rcases List.getElem?_eq_some.mp hi with ⟨hh, _⟩
    exact hh
  have hEntry : RInv b (⟨b.generation, b.last_index.index⟩ : Reader) := by
    unfold RInv
    refine ⟨hli, hgU, ?_, fun _ => rfl, ?_⟩
    · show b.available ≤ Reader.distance_from _ ⟨b.last_index.index, b.last_index.size⟩
        b.generation
      rw [distance_from_eq]
      rw [if_pos ⟨distTo_self _ _ hli, rfl⟩]
      exact hav
    · show (USIZE + b.generation - b.generation) % USIZE
        ≤ pendLenD b.last_index.size b.last_index.index b.generation
          ⟨b.generation, b.last_index.index⟩
      unfold pendLenD
      rw [if_pos rfl, show USIZE + b.generation - b.generation = USIZE by omega,
        Nat.mod_self]
  subst hb2
  refine ⟨?_, List.length_set _ _ _, rfl, rfl, rfl, rfl, rfl, rfl,
    List.getElem?_set_self hidlt, fun j hj => List.getElem?_set_ne fun hh => hj hh.symm,
    ?_⟩
  · unfold WF
    dsimp only
    rw [List.length_set]
    refine ⟨h2, h2U, hdl, hli, hgU, hav, hfree, hpend, ?_⟩
    intro r2 hr2 ha2
    rcases List.mem_or_eq_of_mem_set hr2 with h | h
    · exact hrd r2 h ha2
    · rw [h]
      exact hEntry
  · unfold pend pendD pendLenD
    dsimp only
    rw [if_pos rfl]
    rfl

theorem alloc_spec (m : ReaderMeta) (a g : Nat)
    (hfree : ∀ id ∈ m.free, id < m.readers.length) :
    ((m.alloc a g).1).readers[(m.alloc a g).2]? = some ⟨g, a⟩ ∧
    (∀ id ∈ (m.alloc a g).1.free, id < (m.alloc a g).1.readers.length) ∧
    m.readers.length ≤ (m.alloc a g).1.readers.length ∧
    ∀ r2 ∈ (m.alloc a g).1.readers, r2 ∈ m.readers ∨ r2 = ⟨g, a⟩ := by
  unfold ReaderMeta.alloc
  rcases hfr : m.free with _ | ⟨fid, rest⟩ <;> dsimp only
  · refine ⟨List.getElem?_concat_length _ _, ?_, by rw [List.length_append]; omega, ?_⟩
    · intro id hid
      rw [List.length_append]
      have := hfree id (by rw [hfr]; exact hid)
      omega
    · intro r2 hr2
      rcases List.mem_append.mp hr2 with h | h
      · exact Or.inl h
      · exact Or.inr (List.mem_singleton.mp h)
  · have hflt : fid < m.readers.length := by
      apply hfree
      rw [hfr]
      exact List.mem_cons_self fid rest
    refine ⟨List.getElem?_set_self hflt, ?_, by rw [List.length_set], ?_⟩
    · intro id hid
      rw [List.length_set]
      apply hfree
      rw [hfr]
      exact List.mem_cons_of_mem fid hid
    · intro r2 hr2
      exact List.mem_or_eq_of_mem_set hr2

theorem register_spec (b : RingBuffer T) (hWF : WF b) :
    WF (b.new_reader_id).1 ∧
    (b.new_reader_id).2.reference = b.instance_id ∧
    (b.new_reader_id).1.instance_id = b.instance_id ∧
    (b.new_reader_id).1.pending = [] ∧
    (b.new_reader_id).1.meta.readers[(b.new_reader_id).2.id]?
      = some ⟨b.generation, b.last_index.index⟩ ∧
    (b.new_reader_id).1.data = b.data ∧
    (b.new_reader_id).1.last_index = b.last_index ∧
    (b.new_reader_id).1.generation = b.generation ∧
    (b.new_reader_id).1.available = b.available ∧
    pend (b.new_reader_id).1 (⟨b.generation, b.last_index.index⟩ : Reader) = [] := by
  obtain ⟨hmWF, hmp, hmav, hmli, hmd, hmg, hmid, hmlen, hmne, hmact⟩ := maintain_spec b hWF
  have hmWFc := hmWF
  unfold WF at hmWFc
  obtain ⟨h2, h2U, hdl, hli, hgU, hav, hfree, hpend, hrd⟩ := hmWFc
  have hEntry : RInv b.maintain (⟨b.maintain.generation,
      b.maintain.last_index.index⟩ : Reader) := by
    unfold RInv
    refine ⟨hli, hgU, ?_, fun _ => rfl, ?_⟩
    · show b.maintain.available ≤ Reader.distance_from _
        ⟨b.maintain.last_index.index, b.maintain.last_index.size⟩ b.maintain.generation
      rw [distance_from_eq, if_pos ⟨distTo_self _ _ hli, rfl⟩]
      exact hav
    · show (USIZE + b.maintain.generation - b.maintain.generation) % USIZE
        ≤ pendLenD b.maintain.last_index.size b.maintain.last_index.index
          b.maintain.generation ⟨b.maintain.generation, b.maintain.last_index.index⟩
      unfold pendLenD
      rw [if_pos rfl,
        show USIZE + b.maintain.generation - b.maintain.generation = USIZE by omega,
        Nat.mod_self]
  obtain ⟨al1, al2, al3, al4⟩ :=
    alloc_spec b.maintain.meta b.maintain.last_index.index b.maintain.generation hfree
  unfold RingBuffer.new_reader_id
  dsimp only
  refine ⟨?_, rfl, hmid, hmp, al1, hmd, hmli, hmg, hmav, ?_⟩
  · unfold WF
    dsimp only
    refine ⟨h2, h2U, ?_, hli, hgU, ?_, al2, ?_, ?_⟩
    · exact hdl
    · exact hav
    · intro id hid
      rw [hmp] at hid
      exact absurd hid (List.not_mem_nil id)
    · intro r2 hr2 ha2
      rcases al4 r2 hr2 with h | h
      · exact hrd r2 h ha2
      · rw [h]
        exact hEntry
  · show pendD b.maintain.data b.maintain.last_index.size b.maintain.last_index.index
      b.maintain.generation ⟨b.maintain.generation, b.maintain.last_index.index⟩ = []
    unfold pendD pendLenD
    rw [if_pos rfl]
    rfl

theorem drop_wf (b : RingBuffer T) (rid : ReaderId) (hWF : WF b)
    (hid : rid.id < b.meta.readers.length) : WF (b.dropReader rid) := by
  unfold WF at hWF ⊢
  obtain ⟨h2, h2U, hdl, hli, hgU, hav, hfree, hpend, hrd⟩ := hWF
  refine ⟨h2, h2U, hdl, hli, hgU, hav, hfree, ?_, hrd⟩
  intro id hidm
  show id < b.meta.readers.length
  rcases List.mem_append.mp hidm with h | h
  · exact hpend id h
  · rw [List.mem_singleton.mp h]
    exact hid

theorem wf_new (size iid : Nat) (h1 : 1 < size) (hU : size < USIZE) :
    WF (RingBuffer.new T size iid) := by
  unfold WF RingBuffer.new Data.new CircularIndex.at_end ReaderMeta.new
  refine ⟨by show 2 ≤ size; omega, hU, List.length_replicate size none,
    by show size - 1 < size; omega,
    by show (0 : Nat) < USIZE; unfold USIZE; omega, le_rfl, ?_, ?_, ?_⟩
  · intro id hid
    exact absurd hid (List.not_mem_nil id)
  · intro id hid
    exact absurd hid (List.not_mem_nil id)
  · intro r hr
    exact absurd hr (List.not_mem_nil r)

/-- Every operation preserves the invariant, the instance id, and never
shrinks the capacity, which stays a power-of-two multiple of what it was. -/
theorem bufStep_spec (b b' : RingBuffer T) (hWF : WF b) (h : BufStep b b') :
    WF b' ∧ b'.instance_id = b.instance_id ∧
    b.last_index.size ≤ b'.last_index.size ∧
    ∃ j, b'.last_index.size = 2 ^ j * b.last_index.size := by
  cases h with
  | write =>
    rename_i l hw
    obtain ⟨h1, h2, _, h4, _, h6, _⟩ := iter_write_spec b b' l hWF hw
    exact ⟨h1, h2, h4, h6⟩
  | register =>
    obtain ⟨h1, _, h3, _, _, _, h7, _⟩ := register_spec b hWF
    refine ⟨h1, h3, ?_, ⟨0, ?_⟩⟩
    · rw [h7]
    · rw [h7]
      omega
  | readStep =>
    rename_i rid out hr
    have href : rid.reference = b.instance_id := by
      by_contra hc
      rw [read_mismatch b rid hc] at hr
      exact absurd hr (by simp)
    rcases hi : b.meta.readers[rid.id]? with _ | r
    · rw [read_missing b rid href hi] at hr
      exact absurd hr (by simp)
    · rcases hh : r.active with _ | _
      · -- the entry may be inactive; read still succeeds and rewrites it
        unfold RingBuffer.read at hr
        rw [if_pos href, hi] at hr
        dsimp only at hr
        have hb' : b' = { b with meta := { b.meta with
            readers := b.meta.readers.set rid.id
              ⟨b.generation, b.last_index.index⟩ } } := by
          exact (congrArg Prod.fst (Option.some.inj hr)).symm
        obtain ⟨p1, p2, p3, p4, p5, p6, p7, p8, p9, p10, p11⟩ :=
          read_post b rid r b' hWF hi hb'
        exact ⟨p1, p4, by rw [p6], ⟨0, by rw [p6]; omega⟩⟩
      · unfold RingBuffer.read at hr
        rw [if_pos href, hi] at hr
        dsimp only at hr
        have hb' : b' = { b with meta := { b.meta with
            readers := b.meta.readers.set rid.id
              ⟨b.generation, b.last_index.index⟩ } } := by
          exact (congrArg Prod.fst (Option.some.inj hr)).symm
        obtain ⟨p1, p2, p3, p4, p5, p6, p7, p8, p9, p10, p11⟩ :=
          read_post b rid r b' hWF hi hb'
        exact ⟨p1, p4, by rw [p6], ⟨0, by rw [p6]; omega⟩⟩
  | dropStep rid hid =>
    exact ⟨drop_wf b rid hWF hid, rfl, le_rfl,
      ⟨0, by show b.last_index.size = 2 ^ 0 * b.last_index.size; omega⟩⟩
  | wouldWriteStep =>
    obtain ⟨h1, _, _, h4, _⟩ := maintain_spec b hWF
    refine ⟨h1, rfl, ?_, ⟨0, ?_⟩⟩
    · show b.last_index.size ≤ b.maintain.last_index.size
      rw [h4]
    · show b.maintain.last_index.size = 2 ^ 0 * b.last_index.size
      rw [h4]
      omega

/-- Every reachable buffer state satisfies the invariant, keeps the instance
id it was created with, and has a capacity that is a power-of-two multiple
of the initial capacity. -/
theorem wf_reachable (init iid : Nat) (b : RingBuffer T)
    (h : Reachable init iid b) :
    WF b ∧ b.instance_id = iid ∧ ∃ j, b.last_index.size = 2 ^ j * init := by
  obtain ⟨h1, hU, htr⟩ := h
  induction htr with
  | refl =>
    exact ⟨wf_new init iid h1 hU, rfl, ⟨0, by
      show init = 2 ^ 0 * init
      omega⟩⟩
  | tail hab hbc ih =>
    obtain ⟨ihWF, ihid, j, ihsz⟩ := ih
    obtain ⟨sWF, sid, ssz, j2, spow⟩ := bufStep_spec _ _ ihWF hbc
    exact ⟨sWF, by rw [sid, ihid], ⟨j2 + j, by rw [spow, ihsz]; ring⟩⟩

/-! Helper lemmas for the claim theorems. -/

theorem active_head (b : RingBuffer T) (hWF : WF b) :
    (⟨b.generation, b.last_index.index⟩ : Reader).active = true := by
  unfold WF at hWF
  obtain ⟨_, h2U, _, hli, _⟩ := hWF
  show (b.last_index.index != SENT) = true
  simp only [bne_iff_ne, ne_eq]
  exact lt_sent_of_lt hli h2U

theorem has_reader_false (m : ReaderMeta) (h : ∀ r ∈ m.readers, r.active = false) :
    m.has_reader = false := by
  unfold ReaderMeta.has_reader
  rw [List.any_eq_false]
  intro r hr hcon
  have hcon2 : r.active = true := hcon
  rw [h r hr] at hcon2
  exact Bool.noConfusion hcon2

theorem maintain_fold_inactive (ids : List Nat) : ∀ (m : ReaderMeta) (i : Nat), i ∈ ids →
    ∀ r' : Reader, (ids.foldl ReaderMeta.remove m).readers[i]? = some r' →
    r'.active = false := by
  induction ids with
  | nil =>
    intro m i hi
    exact absurd hi (List.not_mem_nil i)
  | cons id ids ih =>
    intro m i hi r' hr'
    rw [List.foldl_cons] at hr'
    by_cases hmem : i ∈ ids
    · exact ih (m.remove id) i hmem r' hr'
    · have hid : i = id := by
        rcases List.mem_cons.mp hi with h | h
        · exact h
        · exact absurd h hmem
      obtain ⟨flen, fne, fact, ffree⟩ := maintain_fold_spec ids (m.remove id)
      rw [fne i hmem] at hr'
      subst hid
      exact (remove_spec m i).2.2.2 r' hr'

theorem maintain_no_active (b : RingBuffer T)
    (h : ∀ r ∈ b.meta.readers, r.active = false) :
    ∀ r ∈ b.maintain.meta.readers, r.active = false := by
  intro r hr
  by_contra hc
  have ha : r.active = true := by revert hc; cases r.active <;> simp
  obtain ⟨i, hie⟩ := List.mem_iff_getElem?.mp hr
  have hie2 : (b.pending.foldl ReaderMeta.remove b.meta).readers[i]? = some r := hie
  obtain ⟨_, _, fact, _⟩ := maintain_fold_spec b.pending b.meta
  have hpre := fact i r hie2 ha
  have := h r (List.getElem?_mem hpre)
  rw [this] at ha
  exact Bool.noConfusion ha

theorem maintain_drop_inactive (b : RingBuffer T)
    (hdrop : ∀ (i : Nat) (r : Reader), b.meta.readers[i]? = some r → r.active = true →
      i ∈ b.pending) :
    ∀ r ∈ b.maintain.meta.readers, r.active = false := by
  intro r hr
  by_contra hc
  have ha : r.active = true := by revert hc; cases r.active <;> simp
  obtain ⟨i, hie⟩ := List.mem_iff_getElem?.mp hr
  have hie2 : (b.pending.foldl ReaderMeta.remove b.meta).readers[i]? = some r := hie
  obtain ⟨_, _, fact, _⟩ := maintain_fold_spec b.pending b.meta
  have hpre := fact i r hie2 ha
  have hp : i ∈ b.pending := hdrop i r hpre ha
  have hin := maintain_fold_inactive b.pending b.meta i hp r hie2
  rw [hin] at ha
  exact Bool.noConfusion ha

theorem write_no_reader (b : RingBuffer T) (l : List T) (hWF : WF b)
    (hna : ∀ r ∈ b.meta.readers, r.active = false)
    (hlen : l.length ≤ b.last_index.size) :
    ∃ b' : RingBuffer T, b.iter_write l = some b' ∧
      b'.last_index.size = b.last_index.size ∧ WF b' ∧
      ∀ r ∈ b'.meta.readers, r.active = false := by
  by_cases hl0 : l.length = 0
  · refine ⟨b, ?_, rfl, hWF, hna⟩
    unfold RingBuffer.iter_write
    rw [if_pos hl0]
  · have hstep : ∃ b1 : RingBuffer T, b.ensure_additional l.length = some b1 ∧
        l.length ≤ b1.available ∧ b1.last_index.size = b.last_index.size ∧
        (∀ r ∈ b1.meta.readers, r.active = false) := by
      by_cases hfast : l.length ≤ b.available
      · refine ⟨b, ?_, hfast, rfl, hna⟩
        unfold RingBuffer.ensure_additional
        rw [if_pos hfast]
      · have hmna := maintain_no_active b hna
        have hnd : b.maintain.meta.nearest_dist b.maintain.last_index b.maintain.generation
            = none := by
          apply nearest_dist_none_of
          intro r hr
          rw [hmna r hr]
          simp
        refine ⟨{ b.maintain with available := b.maintain.last_index.size }, ?_, ?_, rfl,
          hmna⟩
        · unfold RingBuffer.ensure_additional
          rw [if_neg hfast]
          unfold RingBuffer.ensure_additional_slow
          dsimp only
          rw [hnd]
        · show l.length ≤ b.last_index.size
          exact hlen
    obtain ⟨b1, he, hav1, hsz1, hna1⟩ := hstep
    have hchk : l.length ≤ (writeAll b1 l).available := by
      rw [(writeAll_frame l b1).2.1]
      exact hav1
    have hw : b.iter_write l = some { writeAll b1 l with
        available := (writeAll b1 l).available - l.length
        generation := ((writeAll b1 l).generation + 1) % USIZE } := by
      unfold RingBuffer.iter_write
      rw [if_neg hl0, he]
      dsimp only
      rw [if_pos hchk]
    obtain ⟨wWF, _, _, _, _, _, _⟩ := iter_write_spec b _ l hWF hw
    refine ⟨_, hw, ?_, wWF, ?_⟩
    · show (writeAll b1 l).last_index.size = b.last_index.size
      rw [(writeAll_frame l b1).1, hsz1]
    · intro r hr
      have hr2 : r ∈ (writeAll b1 l).meta.readers := hr
      rw [(writeAll_frame l b1).2.2.2.2.1] at hr2
      exact hna1 r hr2

theorem writeMany_no_reader : ∀ (ls : List (List T)) (b : RingBuffer T), WF b →
    (∀ r ∈ b.meta.readers, r.active = false) →
    (∀ l ∈ ls, l.length ≤ b.last_index.size) →
    ∃ b' : RingBuffer T, writeMany b ls = some b' ∧
      b'.last_index.size = b.last_index.size ∧ WF b' ∧
      ∀ r ∈ b'.meta.readers, r.active = false := by
  intro ls
  induction ls with
  | nil =>
    intro b hWF hna _
    exact ⟨b, rfl, rfl, hWF, hna⟩
  | cons l ls ih =>
    intro b hWF hna hlen
    obtain ⟨b1, hw, hsz, hWF1, hna1⟩ :=
      write_no_reader b l hWF hna (hlen l (List.mem_cons_self l ls))
    obtain ⟨b2, hw2, hsz2, hWF2, hna2⟩ := ih b1 hWF1 hna1 (fun l2 hl2 => by
      rw [hsz]
      exact hlen l2 (List.mem_cons_of_mem l hl2))
    refine ⟨b2, ?_, by rw [hsz2, hsz], hWF2, hna2⟩
    show (match b.iter_write l with
      | none => none
      | some bb => writeMany bb ls) = some b2
    rw [hw]
    exact hw2

theorem writeMany_track (i : Nat) : ∀ (ls : List (List T)) (b b2 : RingBuffer T)
    (r : Reader),
    WF b → b.meta.readers[i]? = some r → r.active = true → i ∉ b.pending →
    writeMany b ls = some b2 →
    WF b2 ∧ b2.instance_id = b.instance_id ∧
    ∃ r2 : Reader, b2.meta.readers[i]? = some r2 ∧ r2.active = true ∧ i ∉ b2.pending ∧
      pend b2 r2 = pend b r ++ (ls.flatten).map some := by
  intro ls
  induction ls with
  | nil =>
    intro b b2 r hWF hi ha hp hw
    have hb : b = b2 := Option.some.inj hw
    subst hb
    exact ⟨hWF, rfl, r, hi, ha, hp, by simp⟩
  | cons l ls ih =>
    intro b b2 r hWF hi ha hp hw
    have hw1 : (match b.iter_write l with
        | none => none
        | some bb => writeMany bb ls) = some b2 := hw
    rcases hwl : b.iter_write l with _ | bw
    · rw [hwl] at hw1
      exact absurd hw1 (by simp)
    · rw [hwl] at hw1
      obtain ⟨wWF, wid, _, _, wpend, _, wtr⟩ := iter_write_spec b bw l hWF hwl
      obtain ⟨r', hi', ha', hpend'⟩ := wtr i r hi ha hp
      have hp' : i ∉ bw.pending := by
        rcases wpend with h | h
        · rw [h]
          exact List.not_mem_nil i
        · rw [h]
          exact hp
      obtain ⟨q1, q2, r2, q3, q4, q5, q6⟩ := ih bw b2 r' wWF hi' ha' hp' hw1
      refine ⟨q1, by rw [q2, wid], r2, q3, q4, q5, ?_⟩
      rw [q6, hpend', List.append_assoc, ← List.map_append]
      rfl

theorem runScript_noloss (rid : ReaderId) :
    ∀ (s : List (ScriptItem T)) (b b2 : RingBuffer T) (r : Reader)
      (outs : List (Option T)),
    WF b → rid.reference = b.instance_id →
    b.meta.readers[rid.id]? = some r → r.active = true → rid.id ∉ b.pending →
    runScript rid b s = some (b2, outs) →
    WF b2 ∧ rid.reference = b2.instance_id ∧
    ∃ r2 : Reader, b2.meta.readers[rid.id]? = some r2 ∧ r2.active = true ∧
      rid.id ∉ b2.pending ∧
      pend b r ++ (writesOf s).map some = outs ++ pend b2 r2 := by
  intro s
  induction s with
  | nil =>
    intro b b2 r outs hWF href hi ha hp hrun
    have h1 : (b, ([] : List (Option T))) = (b2, outs) := Option.some.inj hrun
    have hb : b = b2 := congrArg Prod.fst h1
    have ho : ([] : List (Option T)) = outs := congrArg Prod.snd h1
    subst hb
    subst ho
    exact ⟨hWF, href, r, hi, ha, hp, by simp [writesOf]⟩
  | cons item s ih =>
    cases item with
    | write l =>
      intro b b2 r outs hWF href hi ha hp hrun
      have hrun1 : (match b.iter_write l with
          | none => none
          | some bw => runScript rid bw s) = some (b2, outs) := hrun
      rcases hwl : b.iter_write l with _ | bw
      · rw [hwl] at hrun1
        exact absurd hrun1 (by simp)
      · rw [hwl] at hrun1
        obtain ⟨wWF, wid, _, _, wpend, _, wtr⟩ := iter_write_spec b bw l hWF hwl
        obtain ⟨r', hi', ha', hpend'⟩ := wtr rid.id r hi ha hp
        have hp' : rid.id ∉ bw.pending := by
          rcases wpend with h | h
          · rw [h]
            exact List.not_mem_nil rid.id
          · rw [h]
            exact hp
        have href' : rid.reference = bw.instance_id := by
          rw [wid]
          exact href
        obtain ⟨q1, q2, r2, q3, q4, q5, q6⟩ := ih bw b2 r' outs wWF href' hi' ha' hp' hrun1
        refine ⟨q1, q2, r2, q3, q4, q5, ?_⟩
        have hwr : writesOf (ScriptItem.write l :: s) = l ++ writesOf s := rfl
        rw [hwr, List.map_append, ← List.append_assoc, ← hpend']
        exact q6
    | readR =>
      intro b b2 r outs hWF href hi ha hp hrun
      have hrun1 : (match b.read rid with
          | none => none
          | some (bs, out) =>
            match runScript rid bs s with
            | none => none
            | some (b3, outs2) => some (b3, out ++ outs2)) = some (b2, outs) := hrun
      rw [read_spec b rid r hWF href hi ha] at hrun1
      dsimp only at hrun1
      obtain ⟨p1, p2, p3, p4, p5, p6, p7, p8, p9, p10, p11⟩ :=
        read_post b rid r _ hWF hi rfl
      rcases hrn : runScript rid { b with meta := { b.meta with
          readers := b.meta.readers.set rid.id ⟨b.generation, b.last_index.index⟩ } } s
        with _ | p
      · rw [hrn] at hrun1
        exact absurd hrun1 (by simp)
      · obtain ⟨b3, outs2⟩ := p
        rw [hrn] at hrun1
        have h1 : (b3, pend b r ++ outs2) = (b2, outs) := Option.some.inj hrun1
        have hb3 : b3 = b2 := congrArg Prod.fst h1
        have ho : pend b r ++ outs2 = outs := congrArg Prod.snd h1
        subst hb3
        have hact : (⟨b.generation, b.last_index.index⟩ : Reader).active = true :=
          active_head b hWF
        have href2 : rid.reference = ({ b with meta := { b.meta with
            readers := b.meta.readers.set rid.id
              ⟨b.generation, b.last_index.index⟩ } } : RingBuffer T).instance_id := href
        have hp2 : rid.id ∉ ({ b with meta := { b.meta with
            readers := b.meta.readers.set rid.id
              ⟨b.generation, b.last_index.index⟩ } } : RingBuffer T).pending := hp
        obtain ⟨q1, q2, r2, q3, q4, q5, q6⟩ := ih _ b3 _ outs2 p1 href2 p9 hact hp2 hrn
        refine ⟨q1, q2, r2, q3, q4, q5, ?_⟩
        rw [p11, List.nil_append] at q6
        have hwr : writesOf (ScriptItem.readR :: s) = writesOf s := rfl
        rw [hwr, ← ho, List.append_assoc, q6]

/-! The claim theorems. -/

/-- C1: no-loss. For a reader registered on any reachable channel state, run
any interleaving of write batches and reads of that reader; if every write
succeeds, the concatenation of everything the reads yielded, followed by what
a final read yields, is exactly the list of all elements written after the
registration, in write order, with nothing lost, duplicated or reordered —
including across buffer growth. -/
theorem c1_no_loss (init iid : Nat) (b b2 b3 : RingBuffer T)
    (s : List (ScriptItem T)) (outs fin : List (Option T))
    (hreach : Reachable init iid b)
    (hrun : runScript (b.new_reader_id).2 (b.new_reader_id).1 s = some (b2, outs))
    (hfin : b2.read (b.new_reader_id).2 = some (b3, fin)) :
    outs ++ fin = (writesOf s).map some := by
  have hWF := (wf_reachable init iid b hreach).1
  obtain ⟨rWF, rref, rid_, rpend, rentry, _, _, _, _, rpnil⟩ := register_spec b hWF
  have href1 : (b.new_reader_id).2.reference = (b.new_reader_id).1.instance_id := by
    rw [rid_]
    exact rref
  have hact : (⟨b.generation, b.last_index.index⟩ : Reader).active = true :=
    active_head b hWF
  have hpnil : (b.new_reader_id).2.id ∉ (b.new_reader_id).1.pending := by
    rw [rpend]
    exact List.not_mem_nil _
  obtain ⟨q1, q2, r2, q3, q4, q5, q6⟩ :=
    runScript_noloss (b.new_reader_id).2 s (b.new_reader_id).1 b2
      ⟨b.generation, b.last_index.index⟩ outs rWF href1 rentry hact hpnil hrun
  rw [rpnil, List.nil_append] at q6
  have hrs := read_spec b2 (b.new_reader_id).2 r2 q1 q2 q3 q4
  have h1 := hfin.symm.trans hrs
  have hfin2 : fin = pend b2 r2 := congrArg Prod.snd (Option.some.inj h1)
  rw [hfin2, q6]

theorem c1_no_loss_witness :
    ([some 5, some 6] : List (Option Nat)) ++ [some 7] =
      (writesOf [ScriptItem.write [5, 6], ScriptItem.readR,
        ScriptItem.write [7]]).map Option.some :=
  c1_no_loss 2 0 (RingBuffer.new Nat 2 0) _ _
    [ScriptItem.write [5, 6], ScriptItem.readR, ScriptItem.write [7]]
    [some 5, some 6] [some 7]
    ⟨by decide, by decide, Relation.ReflTransGen.refl⟩ rfl rfl

/-- C2: the spec says writes cannot fail, but a write of more elements than
the capacity against a buffer with no readers fails: the no-reader branch of
ensure_additional_slow resets `available` to the capacity without growing,
and the subsequent `available -= len` underflows (a debug-build panic,
modelled as none). A fresh buffer of capacity 2 receiving 3 elements shows
it. -/
theorem c2_write_underflow :
    (RingBuffer.new Nat 2 0).iter_write [1, 2, 3] = none := rfl

/-- C3: registration cut-off. On any reachable buffer state — that is, after
any sequence of operations, in particular after any writes completed before
the registration — registering a new reader and immediately reading it
yields an empty iterator: nothing written before the registration is
observable through the new handle. -/
theorem c3_registration_cutoff (init iid : Nat) (b : RingBuffer T)
    (hreach : Reachable init iid b) :
    ∃ b2 : RingBuffer T,
      ((b.new_reader_id).1).read (b.new_reader_id).2
        = some (b2, ([] : List (Option T))) := by
  have hWF := (wf_reachable init iid b hreach).1
  obtain ⟨rWF, rref, rid_, _, rentry, _, _, _, _, rpnil⟩ := register_spec b hWF
  have href1 : (b.new_reader_id).2.reference = (b.new_reader_id).1.instance_id := by
    rw [rid_]
    exact rref
  have hrs := read_spec (b.new_reader_id).1 (b.new_reader_id).2
    ⟨b.generation, b.last_index.index⟩ rWF href1 rentry (active_head b hWF)
  rw [rpnil] at hrs
  exact ⟨_, hrs⟩

theorem c3_registration_cutoff_witness :
    ∃ b2 : RingBuffer Nat,
      (((RingBuffer.new Nat 2 0).new_reader_id).1).read
        ((RingBuffer.new Nat 2 0).new_reader_id).2
        = some (b2, ([] : List (Option Nat))) :=
  c3_registration_cutoff 2 0 (RingBuffer.new Nat 2 0)
    ⟨by decide, by decide, Relation.ReflTransGen.refl⟩

/-- C6: misuse trapped. A handle registered on one channel, used to read a
reachable state of a channel with a different instance id, hits the
instance-id assertion (modelled as none) before any cursor or storage
access; on the channel that created it the assertion passes and the read
succeeds. -/
theorem c6_misuse_trapped (initA iidA initB iidB : Nat) (bA bB : RingBuffer T)
    (hA : Reachable initA iidA bA) (hB : Reachable initB iidB bB)
    (hne : iidA ≠ iidB) :
    bB.read (bA.new_reader_id).2 = none ∧
    ∃ (b2 : RingBuffer T) (out : List (Option T)),
      ((bA.new_reader_id).1).read (bA.new_reader_id).2 = some (b2, out) := by
  obtain ⟨hWFA, hidA, _⟩ := wf_reachable initA iidA bA hA
  obtain ⟨_, hidB, _⟩ := wf_reachable initB iidB bB hB
  obtain ⟨rWF, rref, rid_, _, rentry, _, _, _, _, _⟩ := register_spec bA hWFA
  constructor
  · apply read_mismatch
    rw [rref, hidA, hidB]
    exact hne
  · have href1 : (bA.new_reader_id).2.reference = (bA.new_reader_id).1.instance_id := by
      rw [rid_]
      exact rref
    exact ⟨_, _, read_spec _ _ _ rWF href1 rentry (active_head bA hWFA)⟩

theorem c6_misuse_trapped_witness :
    (RingBuffer.new Nat 2 1).read ((RingBuffer.new Nat 2 0).new_reader_id).2 = none ∧
    ∃ (b2 : RingBuffer Nat) (out : List (Option Nat)),
      (((RingBuffer.new Nat 2 0).new_reader_id).1).read
        ((RingBuffer.new Nat 2 0).new_reader_id).2 = some (b2, out) :=
  c6_misuse_trapped 2 0 2 1 (RingBuffer.new Nat 2 0) (RingBuffer.new Nat 2 1)
    ⟨by decide, by decide, Relation.ReflTransGen.refl⟩
    ⟨by decide, by decide, Relation.ReflTransGen.refl⟩
    (by decide)

/-- C7: reader distance. distance_from returns the forward ring distance from
the writer position to the reader cursor, except that at distance zero a
cursor whose generation matches the current one yields the full ring size (a
caught-up reader leaves a whole ring of writable space) while a differing
generation yields zero (the reader is a full ring behind). -/
theorem c7_reader_distance (r : Reader) (c : CircularIndex) (g : Nat) :
    r.distance_from c g =
      if distTo c.size c.index r.last_index = 0 then
        if r.generation = g then c.size else 0
      else distTo c.size c.index r.last_index := by
  have h : r.distance_from c g =
      if distTo c.size c.index r.last_index = 0 ∧ r.generation = g then c.size
      else distTo c.size c.index r.last_index := distance_from_eq r c.index c.size g
  rw [h]
  by_cases h1 : distTo c.size c.index r.last_index = 0 <;>
    by_cases h2 : r.generation = g
  · rw [if_pos ⟨h1, h2⟩, if_pos h1, if_pos h2]
  · rw [if_neg (fun hh => h2 hh.2), if_pos h1, if_neg h2]
    exact h1
  · rw [if_neg (fun hh => h1 hh.1), if_neg h1]
  · rw [if_neg (fun hh => h1 hh.1), if_neg h1]

/-- C8: CircularIndex.step iteration contract. From a non-sentinel start the
k-th step call yields the k-th ring position of the segment from start to
the inclusive end — whose last element is the end itself, each position
occurring exactly once — and every later call yields none forever; from the
sentinel state every call yields none. -/
theorem c8_step_iteration (s start e : Nat) (hs : s < USIZE) (hstart : start < s)
    (he : e < s) :
    (∀ k, k ≤ distTo s start e → stepIter ⟨start, s⟩ e k = some ((start + k) % s)) ∧
    (start + distTo s start e) % s = e ∧
    (∀ k1 k2, k1 ≤ distTo s start e → k2 ≤ distTo s start e →
      (start + k1) % s = (start + k2) % s → k1 = k2) ∧
    (∀ k, distTo s start e < k → stepIter ⟨start, s⟩ e k = none) ∧
    (∀ k, stepIter ⟨SENT, s⟩ e k = none) := by
  have hlt := distTo_lt s start e (by omega)
  refine ⟨fun k hk => stepIter_le s e hs he k start hstart hk,
    add_distTo s start e hstart he,
    fun k1 k2 hk1 hk2 h => ring_inj s start k1 k2 (by omega) (by omega) h,
    fun k hk => stepIter_gt s e hs he k start hstart hk,
    stepIter_magic s e⟩

theorem c8_step_iteration_witness :
    (∀ k, k ≤ distTo 4 1 3 → stepIter ⟨1, 4⟩ 3 k = some ((1 + k) % 4)) ∧
    (1 + distTo 4 1 3) % 4 = 3 ∧
    (∀ k1 k2, k1 ≤ distTo 4 1 3 → k2 ≤ distTo 4 1 3 →
      (1 + k1) % 4 = (1 + k2) % 4 → k1 = k2) ∧
    (∀ k, distTo 4 1 3 < k → stepIter ⟨1, 4⟩ 3 k = none) ∧
    (∀ k, stepIter ⟨SENT, 4⟩ 3 k = none) :=
  c8_step_iteration 4 1 3 (by decide) (by decide) (by decide)

/-- C10: an empty write is a complete no-op. iter_write with the empty batch
(exact length 0) returns the buffer unchanged: the generation counter and
every other component — last_index, available, stored elements, reader
cursors — are exactly as before. -/
theorem c10_empty_write_noop (b : RingBuffer T) : b.iter_write [] = some b := rfl

/-- C4: advance-on-call. read moves the reader's registry cursor to the
buffer's current last_index and generation at the moment of the call — the
returned iterator is never consulted for this — so if the iterator is
discarded, a later read after further write batches yields exactly the
elements of those batches. -/
theorem c4_advance_on_call (b b2 b3 : RingBuffer T) (rid : ReaderId) (r : Reader)
    (out : List (Option T)) (ls : List (List T))
    (hWF : WF b) (href : rid.reference = b.instance_id)
    (hi : b.meta.readers[rid.id]? = some r) (ha : r.active = true)
    (hp : rid.id ∉ b.pending)
    (hr1 : b.read rid = some (b2, out))
    (hw : writeMany b2 ls = some b3) :
    b2.meta.readers[rid.id]? = some ⟨b.generation, b.last_index.index⟩ ∧
    ∃ b4 : RingBuffer T, b3.read rid = some (b4, (ls.flatten).map some) := by
  have hrs := read_spec b rid r hWF href hi ha
  have h1 := hr1.symm.trans hrs
  have hb2 : b2 = { b with meta := { b.meta with
      readers := b.meta.readers.set rid.id ⟨b.generation, b.last_index.index⟩ } } :=
    congrArg Prod.fst (Option.some.inj h1)
  obtain ⟨p1, p2, p3, p4, p5, p6, p7, p8, p9, p10, p11⟩ :=
    read_post b rid r b2 hWF hi hb2
  refine ⟨p9, ?_⟩
  have hact : (⟨b.generation, b.last_index.index⟩ : Reader).active = true :=
    active_head b hWF
  have hp2 : rid.id ∉ b2.pending := by
    rw [p3]
    exact hp
  obtain ⟨q1, q2, r2, q3, q4, q5, q6⟩ :=
    writeMany_track rid.id ls b2 b3 ⟨b.generation, b.last_index.index⟩ p1 p9 hact hp2 hw
  rw [p11, List.nil_append] at q6
  have href3 : rid.reference = b3.instance_id := by
    rw [q2, p4]
    exact href
  have hrs3 := read_spec b3 rid r2 q1 href3 q3 q4
  rw [q6] at hrs3
  exact ⟨_, hrs3⟩

theorem c4_advance_on_call_witness :
    ({ available := 2, last_index := ⟨1, 2⟩, data := [none, none], generation := 0,
       instance_id := 0, meta := { free := [], readers := [⟨0, 1⟩] }, pending := [] }
      : RingBuffer Nat).meta.readers[(⟨0, 0⟩ : ReaderId).id]? = some ⟨0, 1⟩ ∧
    ∃ b4 : RingBuffer Nat,
      ({ available := 1, last_index := ⟨0, 2⟩, data := [some 7, none], generation := 1,
         instance_id := 0, meta := { free := [], readers := [⟨0, 1⟩] }, pending := [] }
        : RingBuffer Nat).read ⟨0, 0⟩
        = some (b4, (([[7]] : List (List Nat)).flatten).map Option.some) :=
  c4_advance_on_call ((RingBuffer.new Nat 2 0).new_reader_id).1 _ _ ⟨0, 0⟩ ⟨0, 1⟩ _ [[7]]
    (by decide) rfl rfl rfl (by decide) rfl rfl

/-- C5: capacity invariant and growth sizing. Along any reachable history the
capacity is a power-of-two multiple of the initial capacity and never shrinks
across a step; and when a write of num elements finds only left < num slots
before the nearest reader, the capacity ensure_additional picks is at least
capacity + (num - left), is a power-of-two multiple of the current capacity,
and is the smallest such multiple reaching capacity + (num - left). -/
theorem c5_capacity_growth (init iid : Nat) (b b' b1 : RingBuffer T) (num left : Nat)
    (hreach : Reachable init iid b) (hstep : BufStep b b')
    (hnav : ¬ num ≤ b.available)
    (hnd : b.maintain.meta.nearest_dist b.maintain.last_index b.maintain.generation
      = some left)
    (hlt : left < num)
    (hens : b.ensure_additional num = some b1) :
    (∃ j, b.last_index.size = 2 ^ j * init) ∧
    b.last_index.size ≤ b'.last_index.size ∧
    (∃ j, b'.last_index.size = 2 ^ j * init) ∧
    b.last_index.size + (num - left) ≤ b1.last_index.size ∧
    (∃ k, b1.last_index.size = 2 ^ k * b.last_index.size) ∧
    (∀ u j, u = 2 ^ j * b.last_index.size → b.last_index.size + (num - left) ≤ u →
      b1.last_index.size ≤ u) := by
  obtain ⟨hWF, hid, j0, hpow0⟩ := wf_reachable init iid b hreach
  obtain ⟨_, _, hmono, j1, hpow1⟩ := bufStep_spec b b' hWF hstep
  unfold RingBuffer.ensure_additional at hens
  rw [if_neg hnav] at hens
  unfold RingBuffer.ensure_additional_slow at hens
  dsimp only at hens
  rw [hnd] at hens
  dsimp only at hens
  rw [if_neg (by omega)] at hens
  by_cases hg : b.maintain.last_index.size + (num - left) < USIZE ∧
      2 * b.maintain.last_index.size < USIZE
  · rw [if_pos hg] at hens
    rcases hloop : growLoop (2 * b.maintain.last_index.size)
        (b.maintain.last_index.size + (num - left)) with _ | snew
    · rw [hloop] at hens
      exact absurd hens (by simp)
    · rw [hloop] at hens
      dsimp only at hens
      have hsz : b1.last_index.size = snew := by
        injection hens with hh
        rw [← hh]
      obtain ⟨g1, g2, g3, ⟨m, hm⟩, gmin⟩ := growLoop_spec _ _ snew hg.2 hloop
      have hms : b.maintain.last_index.size = b.last_index.size := rfl
      rw [hms] at g2 hm gmin
      refine ⟨⟨j0, hpow0⟩, hmono, ⟨j1 + j0, by rw [hpow1, hpow0]; ring⟩, ?_, ?_, ?_⟩
      · rw [hsz]
        exact g2
      · exact ⟨m + 1, by rw [hsz, hm]; ring⟩
      · intro u j hu htu
        rw [hsz]
        match j with
        | 0 =>
          rw [hu, pow_zero, one_mul] at htu
          omega
        | j + 1 =>
          exact gmin u j (by rw [hu]; ring) htu
  · rw [if_neg hg] at hens
    exact absurd hens (by simp)

theorem c5_capacity_growth_witness :
    (∃ j, (((RingBuffer.new Nat 2 0).new_reader_id).1).last_index.size = 2 ^ j * 2) ∧
    (((RingBuffer.new Nat 2 0).new_reader_id).1).last_index.size ≤ ((((RingBuffer.new Nat 2 0).new_reader_id).1).would_write).1.last_index.size ∧
    (∃ j, ((((RingBuffer.new Nat 2 0).new_reader_id).1).would_write).1.last_index.size = 2 ^ j * 2) ∧
    (((RingBuffer.new Nat 2 0).new_reader_id).1).last_index.size + (3 - 2) ≤
      ({ available := 4, last_index := ⟨1, 4⟩, data := [none, none, none, none], generation := 0, instance_id := 0, meta := { free := [], readers := [⟨0, 1⟩] }, pending := [] } : RingBuffer Nat).last_index.size ∧
    (∃ k, ({ available := 4, last_index := ⟨1, 4⟩, data := [none, none, none, none], generation := 0, instance_id := 0, meta := { free := [], readers := [⟨0, 1⟩] }, pending := [] } : RingBuffer Nat).last_index.size = 2 ^ k * (((RingBuffer.new Nat 2 0).new_reader_id).1).last_index.size) ∧
    (∀ u j, u = 2 ^ j * (((RingBuffer.new Nat 2 0).new_reader_id).1).last_index.size →
      (((RingBuffer.new Nat 2 0).new_reader_id).1).last_index.size + (3 - 2) ≤ u →
      ({ available := 4, last_index := ⟨1, 4⟩, data := [none, none, none, none], generation := 0, instance_id := 0, meta := { free := [], readers := [⟨0, 1⟩] }, pending := [] } : RingBuffer Nat).last_index.size ≤ u) :=
  c5_capacity_growth 2 0 ((RingBuffer.new Nat 2 0).new_reader_id).1 _ _ 3 2
    ⟨by decide, by decide, Relation.ReflTransGen.single (BufStep.register _)⟩
    (BufStep.wouldWriteStep _)
    (by decide)
    rfl
    (by decide)
    (by
      unfold RingBuffer.ensure_additional
      rw [if_neg (by decide)]
      unfold RingBuffer.ensure_additional_slow
      dsimp only
      rw [show (((RingBuffer.new Nat 2 0).new_reader_id).1).maintain.meta.nearest_dist
          (((RingBuffer.new Nat 2 0).new_reader_id).1).maintain.last_index
          (((RingBuffer.new Nat 2 0).new_reader_id).1).maintain.generation = some 2 from rfl]
      dsimp only
      rw [if_neg (by decide), if_pos (by decide)]
      rw [show growLoop (2 * (((RingBuffer.new Nat 2 0).new_reader_id).1).maintain.last_index.size)
          ((((RingBuffer.new Nat 2 0).new_reader_id).1).maintain.last_index.size + (3 - 2))
          = some 4 from by rw [growLoop]; decide]
      rfl)

/-- C9: drop reclaims. would_write first drains the pending drop
notifications (maintain) and then reports whether some registry entry is
still active; once every registered handle has been dropped it reports
false, and any following sequence of writes of at most capacity elements
each succeeds without growing the buffer. -/
theorem c9_drop_reclaims (b : RingBuffer T) (ls : List (List T)) (hWF : WF b)
    (hdrop : ∀ (i : Nat) (r : Reader), b.meta.readers[i]? = some r → r.active = true →
      i ∈ b.pending)
    (hlen : ∀ l ∈ ls, l.length ≤ b.last_index.size) :
    ((b.would_write).2 = true ↔ ∃ r ∈ b.maintain.meta.readers, r.active = true) ∧
    (b.would_write).2 = false ∧
    ∃ b2 : RingBuffer T, writeMany (b.would_write).1 ls = some b2 ∧
      b2.last_index.size = b.last_index.size ∧ (b2.would_write).2 = false := by
  have hmna := maintain_drop_inactive b hdrop
  have hm := maintain_spec b hWF
  refine ⟨?_, ?_, ?_⟩
  · show b.maintain.meta.has_reader = true ↔ _
    unfold ReaderMeta.has_reader
    rw [List.any_eq_true]
  · show b.maintain.meta.has_reader = false
    exact has_reader_false _ hmna
  · obtain ⟨b2, hw, hsz, hWF2, hna2⟩ := writeMany_no_reader ls b.maintain hm.1 hmna
      (fun l hl => hlen l hl)
    refine ⟨b2, hw, ?_, ?_⟩
    · rw [hsz]
      exact rfl
    · show b2.maintain.meta.has_reader = false
      exact has_reader_false _ (maintain_no_active b2 hna2)

theorem c9_drop_reclaims_witness :
    ((((((RingBuffer.new Nat 2 0).new_reader_id).1).dropReader ⟨0, 0⟩).would_write).2 = true ↔
      ∃ r ∈ ((((RingBuffer.new Nat 2 0).new_reader_id).1).dropReader ⟨0, 0⟩).maintain.meta.readers, r.active = true) ∧
    (((((RingBuffer.new Nat 2 0).new_reader_id).1).dropReader ⟨0, 0⟩).would_write).2 = false ∧
    ∃ b2 : RingBuffer Nat,
      writeMany ((((((RingBuffer.new Nat 2 0).new_reader_id).1).dropReader ⟨0, 0⟩).would_write).1) [[7], [8]] = some b2 ∧
      b2.last_index.size = ((((RingBuffer.new Nat 2 0).new_reader_id).1).dropReader ⟨0, 0⟩).last_index.size ∧
      (b2.would_write).2 = false :=
  c9_drop_reclaims ((((RingBuffer.new Nat 2 0).new_reader_id).1).dropReader ⟨0, 0⟩) [[7], [8]]
    (by decide)
    (by
      intro i r hi ha
      match i with
      | 0 => decide
      | n + 1 =>
        have hi2 : ([(⟨0, 1⟩ : Reader)] : List Reader)[n + 1]? = some r := hi
        rw [List.getElem?_cons_succ, List.getElem?_nil] at hi2
        exact Option.noConfusion hi2)
    (by decide)

end Shrev
